import Mathlib

/-!
Verification of md_to_article: markdown extraction, template rendering and file
organisation.

A shallow embedding of `main.go`.  Go strings are modelled as sequences of Unicode
code points (`List Char`), i.e. as the runes of valid UTF-8 text; every byte-level
operation the program uses (`HasPrefix`, `Count`, `Replace`, `TrimLeft`, `Trim`,
`TrimPrefix`, all with ASCII arguments) coincides with its rune-level reading on such
text.  The Go standard-library functions are modelled from their documented behaviour;
the functions of `main.go` are translated statement by statement.
-/

namespace MdToArticle

/-- A Go string, as its sequence of runes. -/
abbrev Str := List Char

/-! ## The `strings` package -/

/-- Go `unicode.IsSpace`: the Latin-1 spaces `\t \n \v \f \r`, space, U+0085, U+00A0, and
the other code points with the Unicode White_Space property. -/
def isSpace (c : Char) : Bool :=
  let n := c.toNat
  (9 ≤ n && n ≤ 13) || n = 0x20 || n = 0x85 || n = 0xA0 || n = 0x1680 ||
  (0x2000 ≤ n && n ≤ 0x200A) || n = 0x2028 || n = 0x2029 || n = 0x202F ||
  n = 0x205F || n = 0x3000

/-- Go `strings.TrimFunc`: drop the leading and the trailing runes satisfying `f`. -/
def trimFunc (s : Str) (f : Char → Bool) : Str :=
  (s.dropWhile f).rdropWhile f

/-- Go `strings.TrimSpace`. -/
def trimSpace (s : Str) : Str := trimFunc s isSpace

/-- Go `strings.TrimLeft`: drop the leading runes contained in `cutset`. -/
def trimLeft (s cutset : Str) : Str := s.dropWhile (fun c => cutset.contains c)

/-- Go `strings.Trim`: drop the leading and trailing runes contained in `cutset`. -/
def trim (s cutset : Str) : Str := trimFunc s (fun c => cutset.contains c)

/-- Go `strings.HasPrefix`. -/
def hasPrefix (s pre : Str) : Bool := pre.isPrefixOf s

/-- Go `strings.HasSuffix`. -/
def hasSuffix (s suf : Str) : Bool := suf.isSuffixOf s

/-- Go `strings.TrimPrefix`. -/
def trimPrefix (s pre : Str) : Str := if hasPrefix s pre then s.drop pre.length else s

/-- Go `strings.TrimSuffix`. -/
def trimSuffix (s suf : Str) : Str :=
  if hasSuffix s suf then s.take (s.length - suf.length) else s

/-- Go `strings.Count(s, string(c))` for a one-byte pattern: the number of occurrences
of `c` in `s`. -/
def countByte (s : Str) (c : Char) : Nat := s.count c

/-- Go `strings.Contains`. -/
def contains : Str → Str → Bool
  | [], sub => sub.isPrefixOf []
  | c :: cs, sub => sub.isPrefixOf (c :: cs) || contains cs sub

/-- Go `strings.Replace(s, old, new, 1)`: the first occurrence of `old` in `s` (scanning
from the left) is replaced by `new`; `s` is returned unchanged when there is none. -/
def replaceFirst : Str → Str → Str → Str
  | [], old, new => if old.isPrefixOf [] then new else []
  | c :: cs, old, new =>
    if old.isPrefixOf (c :: cs) then new ++ (c :: cs).drop old.length
    else c :: replaceFirst cs old new

/-- The number of positions of `s` at which an occurrence of `sub` starts. -/
def occurrences : Str → Str → Nat
  | [], sub => if sub.isPrefixOf [] then 1 else 0
  | c :: cs, sub => (if sub.isPrefixOf (c :: cs) then 1 else 0) + occurrences cs sub

/-! ## Formatting integers (`fmt` verb `%d`, `time` numeric fields) -/

/-- The decimal digit `d` as a rune. -/
def digitChar (d : Nat) : Char := Char.ofNat (48 + d % 10)

/-- The decimal digits of `n`, most significant first, accumulated in front of `acc`. -/
def natDigitsAux : Nat → Nat → Str → Str
  | 0, n, acc => digitChar n :: acc
  | fuel + 1, n, acc =>
    if n < 10 then digitChar n :: acc else natDigitsAux fuel (n / 10) (digitChar n :: acc)

/-- The decimal representation of a natural number. -/
def natDigits (n : Nat) : Str := natDigitsAux n n []

/-- Go `fmt.Sprintf("%d", x)` for an `int`. -/
def formatInt (x : Int) : Str :=
  if x < 0 then '-' :: natDigits x.natAbs else natDigits x.natAbs

/-! ## Content extraction -/

/-- Go `HeadlineInfo`. -/
structure HeadlineInfo where
  /-- The field `Level`. -/
  Level : Int
  /-- The field `Content`. -/
  Content : Str
deriving DecidableEq, Repr

/-- The three accumulators of the scanning loop of `extractContent`: the `headlines`
slice, the `text` builder and the `image` variable. -/
structure Extracted where
  /-- The headline records collected so far. -/
  headlines : List HeadlineInfo
  /-- The contents of the text builder. -/
  text : Str
  /-- The current image path. -/
  image : Str
deriving DecidableEq, Repr

/-- The image path computed from an image line:
`strings.Trim(strings.TrimSpace(strings.TrimPrefix(line, "![Picture]")), "()")`. -/
def imagePath (line : Str) : Str :=
  trim (trimSpace (trimPrefix line "![Picture]".toList)) "()".toList

/-- One iteration of the `for scanner.Scan()` loop of `extractContent` on `line`. -/
def extractStep (st : Extracted) (line : Str) : Extracted :=
  if hasPrefix line "#".toList then
    let level := countByte line '#'
    let headline := trimSpace (trimLeft line "# ".toList)
    { st with headlines := st.headlines ++ [{ Level := (level : Int), Content := headline }] }
  else if hasPrefix line "![".toList then
    { st with image := imagePath line }
  else
    { st with text := st.text ++ (line ++ " ".toList) }

/-- Go `extractContent`, on the sequence of lines the scanner yields for the opened file:
the loop runs over the lines from empty accumulators, and the text builder is
whitespace-trimmed on return. -/
def extractContent (lines : List Str) : Extracted :=
  let st := lines.foldl extractStep { headlines := [], text := [], image := [] }
  { headlines := st.headlines, text := trimSpace st.text, image := st.image }

/-- A line that `extractContent` classifies as a headline. -/
def isHeadlineLine (line : Str) : Bool := hasPrefix line "#".toList

/-- A line that `extractContent` classifies as an image line. -/
def isImageLine (line : Str) : Bool :=
  !hasPrefix line "#".toList && hasPrefix line "![".toList

/-- A line that `extractContent` classifies as plain text. -/
def isTextLine (line : Str) : Bool :=
  !hasPrefix line "#".toList && !hasPrefix line "![".toList

/-- The record `extractContent` appends for a headline line. -/
def headlineOf (line : Str) : HeadlineInfo :=
  { Level := (countByte line '#' : Int), Content := trimSpace (trimLeft line "# ".toList) }

/-- The image selected by a run of the loop: the path of the last image line, or the
initial value when there is none. -/
def lastImage (init : Str) (lines : List Str) : Str :=
  match (lines.filter isImageLine).getLast? with
  | none => init
  | some l => imagePath l

/-- The image path as the specification words it: the path with every leading and
trailing parenthesis or whitespace rune removed. -/
def strippedPath (p : Str) : Str :=
  trimFunc p (fun c => isSpace c || "()".toList.contains c)

/-! ## Template rendering -/

/-- The headline placeholder of the template. -/
def placeholderHeadline : Str := "Placeholder Headline".toList

/-- The placeholder shared by the text and the image substitution. -/
def placeholderText : Str := "Test text".toList

/-- The title placeholder of the template. -/
def placeholderTitle : Str := "Placeholder Title".toList

/-- The replacement `fmt.Sprintf("<h%d>%s</h%d>", headline.Level, headline.Content,
headline.Level)` built in `replaceHeadlines`. -/
def headlineTag (headline : HeadlineInfo) : Str :=
  "<h".toList ++ formatInt headline.Level ++ ">".toList ++ headline.Content
    ++ "</h".toList ++ formatInt headline.Level ++ ">".toList

/-- Go `replaceHeadlines`: for each headline in order, the first occurrence of the
placeholder in the current content is replaced by the headline's tag. -/
def replaceHeadlines (content : Str) (headlines : List HeadlineInfo) : Str :=
  headlines.foldl
    (fun content headline => replaceFirst content placeholderHeadline (headlineTag headline))
    content

/-- Go `replaceText`. -/
def replaceText (content text : Str) : Str :=
  replaceFirst content placeholderText ("<p>".toList ++ text ++ "</p>".toList)

/-- Go `replaceImage`. -/
def replaceImage (content imagePath : Str) : Str :=
  replaceFirst content placeholderText
    ("<img src=\"".toList ++ imagePath ++ "\" alt=\"Picture\">".toList)

/-- The content of `replaceContentInTemplate` after the headline, text and image
substitutions (lines 35 to 37), before the two base-name substitutions. -/
def renderBody (templateContent : Str) (doc : Extracted) : Str :=
  let newContent := replaceHeadlines templateContent doc.headlines
  let newContent := replaceText newContent doc.text
  replaceImage newContent doc.image

/-- The content of `replaceContentInTemplate` after the headline-title substitution
(line 38): the first `Placeholder Headline` left is replaced by the base name. -/
def renderHeadlineTitle (templateContent : Str) (doc : Extracted) (baseName : Str) : Str :=
  replaceFirst (renderBody templateContent doc) placeholderHeadline baseName

/-- The rendering pipeline of `replaceContentInTemplate` (lines 35 to 39): the string
written to the output file. -/
def render (templateContent : Str) (doc : Extracted) (baseName : Str) : Str :=
  replaceFirst (renderHeadlineTitle templateContent doc baseName) placeholderTitle baseName

/-- The template `s0 ++ P ++ s1 ++ ... ++ P ++ sm` with `P` the headline placeholder,
from its first segment `s0` and the later segments `[s1, ..., sm]`. -/
def templateOf (s0 : Str) (segs : List Str) : Str :=
  s0 ++ (segs.map (fun s => placeholderHeadline ++ s)).flatten

/-- The string `s0 ++ f1 ++ s1 ++ ... ++ fm ++ sm`: the template of segments `s0`,
`[s1, ..., sm]` with its placeholders replaced, in order, by the fillers `[f1, ..., fm]`. -/
def filledTemplate (s0 : Str) (fills : List Str) (segs : List Str) : Str :=
  s0 ++ (List.zipWith (fun f s => f ++ s) fills segs).flatten

/-- The fillers the specification gives for `n` headlines and `m` placeholders: the tags
of the first `min n m` headlines, then the placeholder itself for the occurrences left. -/
def headlineFills (headlines : List HeadlineInfo) (m : Nat) : List Str :=
  (headlines.map headlineTag).take m ++ List.replicate (m - headlines.length) placeholderHeadline

/-! ## The `path/filepath` package (Unix) -/

/-- The elements of a path between its separators: `strings.Split(path, "/")`. -/
def splitSlash : Str → List Str
  | [] => [[]]
  | c :: cs =>
    if c = '/' then [] :: splitSlash cs
    else (c :: (splitSlash cs).headD []) :: (splitSlash cs).tail

/-- One path element processed by `filepath.Clean`, on the stack of elements kept so far:
empty and `.` elements are skipped; `..` removes the last kept element unless there is none
or it is itself `..`, in which case it is kept when the path is not rooted and dropped when
it is; any other element is kept. -/
def cleanStep (rooted : Bool) (stack : List Str) (elem : Str) : List Str :=
  if elem = [] ∨ elem = ".".toList then stack
  else if elem = "..".toList then
    match stack.getLast? with
    | some top =>
      if top ≠ "..".toList then stack.dropLast
      else if rooted then stack else stack ++ ["..".toList]
    | none => if rooted then stack else stack ++ ["..".toList]
  else stack ++ [elem]

/-- Whether a non-empty path starts with a separator (`rooted` in `filepath.Clean`). -/
def isRooted (path : Str) : Bool := path.head? = some '/'

/-- The path elements `filepath.Clean` keeps, in order. -/
def cleanElems (rooted : Bool) (path : Str) : List Str :=
  (splitSlash path).foldl (cleanStep rooted) []

/-- The output buffer of `filepath.Clean`: the leading separator of a rooted path, then
the kept elements separated by `/`. -/
def cleanOut (rooted : Bool) (stack : List Str) : Str :=
  (if rooted then "/".toList else []) ++ "/".toList.intercalate stack

/-- Go `filepath.Clean`: the shortest path equivalent to `path` by purely lexical
processing; the empty path and an empty result become `.`. -/
def clean (path : Str) : Str :=
  if path = [] then ".".toList
  else
    let out := cleanOut (isRooted path) (cleanElems (isRooted path) path)
    if out = [] then ".".toList else out

/-- Go `filepath.Join`: the elements from the first non-empty one on are joined by `/` and
the result is cleaned; the result is empty when every element is empty. -/
def joinPath (elem : List Str) : Str :=
  match elem.dropWhile (fun e => e = []) with
  | [] => []
  | e :: es => clean ("/".toList.intercalate (e :: es))

/-- A path element that `filepath.Clean` keeps as it is: not empty, without separator,
and neither `.` nor `..`. -/
def PlainElem (e : Str) : Prop :=
  e ≠ [] ∧ '/' ∉ e ∧ e ≠ ".".toList ∧ e ≠ "..".toList

/-! ## The `time` package: the fields used by the layouts of `organizeFilesByHour` -/

/-- The civil fields of a `time.Time` that the layouts `2006`, `01-January` and `15` read:
`Year()`, `Month()` (1 to 12) and `Hour()` (0 to 23). -/
structure ModTime where
  /-- The year. -/
  year : Int
  /-- The month of the year, 1 to 12. -/
  month : Nat
  /-- The hour of the day, 0 to 23. -/
  hour : Nat
deriving DecidableEq, Repr

/-- Go `time.appendInt`: the decimal representation of `x`, zero-padded to `width`
digits, with a leading `-` when `x` is negative. -/
def appendInt (x : Int) (width : Nat) : Str :=
  let digits := natDigits x.natAbs
  (if x < 0 then ['-'] else []) ++ List.replicate (width - digits.length) '0' ++ digits

/-- Go `time.longMonthNames`. -/
def longMonthNames : List Str :=
  ["January".toList, "February".toList, "March".toList, "April".toList, "May".toList,
   "June".toList, "July".toList, "August".toList, "September".toList, "October".toList,
   "November".toList, "December".toList]

/-- The result of `t.Format("2006")`: the year, zero-padded to four digits. -/
def formatYear (t : ModTime) : Str := appendInt t.year 4

/-- The result of `t.Format("01-January")`: the two-digit month, a dash, the month name. -/
def formatMonth (t : ModTime) : Str :=
  appendInt t.month 2 ++ "-".toList ++ longMonthNames.getD (t.month - 1) []

/-- The result of `t.Format("15")`: the two-digit hour of the 24-hour clock. -/
def formatHour (t : ModTime) : Str := appendInt t.hour 2

/-! ## File organisation -/

/-- The fields of `os.FileInfo` the program reads. -/
structure FileInfo where
  /-- The result of `Name()`: the base name of the file. -/
  name : Str
  /-- The result of `IsDir()`. -/
  isDir : Bool
  /-- The result of `ModTime()`. -/
  modTime : ModTime
deriving DecidableEq, Repr

/-- The destination path `destPath` computed by the walk callback of `organizeFilesByHour`
for a regular file visited at `path` with file information `info` (lines 122 to 134). -/
def organizeDestPath (destinationFolder : Str) (_path : Str) (info : FileInfo) : Str :=
  let creationTime := info.modTime
  let yearFolder := joinPath [destinationFolder, formatYear creationTime]
  let monthFolder := joinPath [yearFolder, formatMonth creationTime]
  let hourPrefix := formatHour creationTime
  let newFileName := hourPrefix ++ "_".toList ++ info.name
  joinPath [monthFolder, newFileName]

/-- A file modified at 2024-03-15 14:22:00. -/
def sampleInfo (name : Str) : FileInfo :=
  { name := name, isDir := false, modTime := { year := 2024, month := 3, hour := 14 } }

/-- Go `filepath.Base`: the last element of `path`, trailing separators removed first;
`.` for the empty path and `/` for a path of separators only. -/
def base (path : Str) : Str :=
  if path = [] then ".".toList
  else
    let stripped := path.rdropWhile (fun c => c = '/')
    let last := (stripped.reverse.takeWhile (fun c => c ≠ '/')).reverse
    if last = [] then "/".toList else last

/-- Go `filepath.Ext`: the suffix of the last element of `path` starting at its final dot,
empty when it has no dot. -/
def ext (path : Str) : Str :=
  let last := (path.reverse.takeWhile (fun c => c ≠ '/')).reverse
  if '.' ∈ last then '.' :: (last.reverse.takeWhile (fun c => c ≠ '.')).reverse else []

/-! ## Files -/

/-- Go `bufio.dropCR`: one trailing carriage return is dropped. -/
def dropCR (data : Str) : Str :=
  if data.getLast? = some '\r' then data.dropLast else data

/-- The tokens of a `bufio.Scanner` with the default split function `ScanLines`, with the
unfinished line `cur` read so far: lines end at `\n`, lose one trailing `\r`, and a last
line without newline is returned when it is not empty. -/
def scanLinesAux : Str → Str → List Str
  | [], cur => if cur = [] then [] else [dropCR cur]
  | c :: cs, cur =>
    if c = '\n' then dropCR cur :: scanLinesAux cs [] else scanLinesAux cs (cur ++ [c])

/-- The lines `scanner.Scan()` yields for a file of content `data` (every line within the
capacity of the scanner's buffer). -/
def scanLines (data : Str) : List Str := scanLinesAux data []

/-- The file system as the conversion pass sees it: the contents of the files that can be
opened and read, the folders that exist, and the folders that `os.MkdirAll` cannot
create when they are missing. -/
structure World where
  /-- The content of the file at a path, `none` when it cannot be opened. -/
  files : Str → Option Str
  /-- Whether the folder at a path exists. -/
  dirs : Str → Bool
  /-- Whether `os.MkdirAll` fails at a path whose folder is missing. -/
  mkdirAllFails : Str → Bool

/-- The ways one call of `os.WriteFile` fails: when it opens the file, which is then left
as it was, or after the file has been truncated, which then holds the first `written`
runes of the data. -/
inductive WriteFailure where
  /-- The file cannot be opened or created. -/
  | atOpen
  /-- The write or the close fails after `written` runes. -/
  | atWrite (written : Nat)
deriving DecidableEq, Repr

/-- Go `os.MkdirAll`: nothing to do when the folder exists; otherwise it is created,
unless that fails (`none`). -/
def mkdirAll (w : World) (path : Str) : Option World :=
  if w.dirs path then some w
  else if w.mkdirAllFails path then none
  else some { w with dirs := fun p => decide (p = path) || w.dirs p }

/-- Go `os.WriteFile` under the failure `fault` striking this call, if any: the new file
system and whether the call succeeded.  On success the file holds `data`; a call failing
after the open leaves the file truncated to what was written. -/
def writeFile (w : World) (path data : Str) (fault : Option WriteFailure) : World × Bool :=
  match fault with
  | none => ({ w with files := fun p => if p = path then some data else w.files p }, true)
  | some .atOpen => (w, false)
  | some (.atWrite written) =>
    ({ w with files := fun p => if p = path then some (data.take written) else w.files p },
      false)

/-- The errors `replaceContentInTemplate` returns. -/
inductive ConvertError where
  /-- The wrapped error of `extractContent`: the markdown file cannot be opened. -/
  | extracting
  /-- The template cannot be read. -/
  | readingTemplate
  /-- The output folder cannot be created. -/
  | creatingFolder
  /-- The output file cannot be written. -/
  | writingOutput
deriving DecidableEq, Repr

/-- Go `extractContent` on a file path: the file is opened, which may fail, and its lines
are scanned. -/
def extractContentFrom (w : World) (filePath : Str) : Except ConvertError Extracted :=
  match w.files filePath with
  | none => .error .extracting
  | some data => .ok (extractContent (scanLines data))

/-- The base name `replaceContentInTemplate` computes (lines 32 and 33):
`strings.TrimSuffix(filepath.Base(mdFilePath), filepath.Ext(filepath.Base(mdFilePath)))`. -/
def baseNameOf (mdFilePath : Str) : Str :=
  let baseName := base mdFilePath
  trimSuffix baseName (ext baseName)

/-- The output path `replaceContentInTemplate` computes (line 47):
`filepath.Join(outputFolderPath, baseName+".html")`. -/
def outputPathOf (mdFilePath outputFolderPath : Str) : Str :=
  joinPath [outputFolderPath, baseNameOf mdFilePath ++ ".html".toList]

/-- Go `replaceContentInTemplate`, with the failure `fault` striking its `os.WriteFile`
call, if any: the file system it leaves and the error it returns.  The folder stays
created and the output file stays truncated when a later step fails. -/
def replaceContentInTemplate (w : World) (mdFilePath htmlTemplatePath outputFolderPath : Str)
    (fault : Option WriteFailure) : World × Option ConvertError :=
  match extractContentFrom w mdFilePath with
  | .error err => (w, some err)
  | .ok doc =>
    match w.files htmlTemplatePath with
    | none => (w, some .readingTemplate)
    | some templateContent =>
      let baseName := baseNameOf mdFilePath
      let newContent := render templateContent doc baseName
      match mkdirAll w outputFolderPath with
      | none => (w, some .creatingFolder)
      | some w1 =>
        let outputPath := outputPathOf mdFilePath outputFolderPath
        match writeFile w1 outputPath newContent fault with
        | (w2, false) => (w2, some .writingOutput)
        | (w2, true) => (w2, none)

/-- One call of the function passed to `filepath.Walk`: the path visited, its file
information, the error of the walk for this entry, if any, and the failure striking
`os.WriteFile` while this entry is converted, if any. -/
structure WalkEntry where
  /-- The path of the entry. -/
  path : Str
  /-- The file information of the entry. -/
  info : FileInfo
  /-- The error the walk reports for the entry. -/
  err : Option Str
  /-- The failure of the write of this entry's output. -/
  writeFault : Option WriteFailure

/-- Go `filepath.Walk` over the entries it visits, in order: the callback `fn` is applied to
each entry and the walk stops at the first error `fn` returns, which it returns. -/
def walk (fn : World → WalkEntry → World × Option Str) :
    World → List WalkEntry → World × Option Str
  | w, [] => (w, none)
  | w, e :: es =>
    match fn w e with
    | (w', some err) => (w', some err)
    | (w', none) => walk fn w' es

/-- The walk callback of the conversion pass of `main` (lines 164 to 175): an error of
the walk is returned; a regular file named `*.md` is converted and an error of the
conversion is printed, not returned. -/
def convertEntry (htmlTemplatePath outputFolderPath : Str) (w : World) (e : WalkEntry) :
    World × Option Str :=
  match e.err with
  | some err => (w, some err)
  | none =>
    if !e.info.isDir && hasSuffix e.info.name ".md".toList then
      match replaceContentInTemplate w e.path htmlTemplatePath outputFolderPath e.writeFault with
      | (w', some _) => (w', none)
      | (w', none) => (w', none)
    else (w, none)

/-- The folder `mdFolderPath` of `main`. -/
def mdFolderPath : Str := "contents/mdfiles".toList

/-- The path `htmlTemplatePath` of `main`. -/
def htmlTemplatePath : Str := "contents/layout/article_layout.html".toList

/-- The folder `outputFolderPath` of `main`. -/
def outputFolderPath : Str := "contents/articles".toList

/-- The conversion pass of `main`, on the entries the walk of `contents/mdfiles` visits. -/
def mainConvert (w : World) (entries : List WalkEntry) : World × Option Str :=
  walk (convertEntry htmlTemplatePath outputFolderPath) w entries

/-- A regular file entry of the walk, without walk error, with the given write failure. -/
def fileEntry (path name : Str) (fault : Option WriteFailure) : WalkEntry :=
  { path := path, info := sampleInfo name, err := none, writeFault := fault }

/-- A file system with a template and the markdown files `x/post.md`, `y/post.md` and
`a.md`; `b.md` cannot be opened. -/
def sampleWorld : World :=
  { files := fun p =>
      if p = "contents/layout/article_layout.html".toList then
        some "<h1>Placeholder Headline</h1><p>Test text</p>".toList
      else if p = "contents/mdfiles/a.md".toList then some "# A\nhello\n".toList
      else if p = "contents/mdfiles/x/post.md".toList then some "# X\n".toList
      else if p = "contents/mdfiles/y/post.md".toList then some "# Y\n".toList
      else none,
    dirs := fun _ => false,
    mkdirAllFails := fun _ => false }

/-- Two file systems that a conversion treats alike, the files at the paths `except`
apart: they hold the same files elsewhere, `os.MkdirAll` fails at the same missing
folders, and a folder existing in only one of them can be created in the other. -/
def Agree (except : List Str) (w1 w2 : World) : Prop :=
  (∀ p, p ∉ except → w1.files p = w2.files p) ∧
  w1.mkdirAllFails = w2.mkdirAllFails ∧
  (∀ p, w1.dirs p ≠ w2.dirs p → w1.mkdirAllFails p = false)

/-- A document with one headline `{1, "A"}`, the text `t` and the image `i.png`. -/
def sampleDoc : Extracted :=
  { headlines := [{ Level := 1, Content := "A".toList }], text := "t".toList,
    image := "i.png".toList }

/-- The shape of the element stack of `filepath.Clean`: some `..` elements, none when the
path is rooted, followed by plain elements. -/
def CleanStack (rooted : Bool) (stack : List Str) : Prop :=
  ∃ k U, stack = List.replicate k "..".toList ++ U ∧ (∀ u ∈ U, PlainElem u) ∧
    (rooted = true → k = 0)

/-- The segments of a template after one substitution of the text placeholder by `new`:
the first segment containing `Test text` has its first occurrence replaced, the other
segments are as they were. -/
def substFirstSeg (new : Str) : List Str → List Str
  | [] => []
  | s :: ss =>
    if contains s placeholderText then replaceFirst s placeholderText new :: ss
    else s :: substFirstSeg new ss

/-! ## Auxiliary lemmas -/

theorem extractStep_headline {line : Str} (st : Extracted) (h : isHeadlineLine line = true) :
    extractStep st line = { st with headlines := st.headlines ++ [headlineOf line] } := by
  simp only [isHeadlineLine] at h
  simp only [extractStep, h, if_true, headlineOf]

theorem extractStep_image {line : Str} (st : Extracted) (h : isImageLine line = true) :
    extractStep st line = { st with image := imagePath line } := by
  simp only [isImageLine, Bool.and_eq_true, Bool.not_eq_true, Bool.not_eq_eq_eq_not, Bool.not_true] at h
  simp only [extractStep, h.1, h.2, if_true, if_false, Bool.false_eq_true]

theorem extractStep_text {line : Str} (st : Extracted) (h : isTextLine line = true) :
    extractStep st line = { st with text := st.text ++ (line ++ " ".toList) } := by
  simp only [isTextLine, Bool.and_eq_true, Bool.not_eq_true, Bool.not_eq_eq_eq_not, Bool.not_true] at h
  simp only [extractStep, h.1, h.2, if_true, if_false, Bool.false_eq_true]

theorem line_cases (line : Str) :
    (isHeadlineLine line = true ∧ isImageLine line = false ∧ isTextLine line = false) ∨
    (isHeadlineLine line = false ∧ isImageLine line = true ∧ isTextLine line = false) ∨
    (isHeadlineLine line = false ∧ isImageLine line = false ∧ isTextLine line = true) := by
  simp only [isHeadlineLine, isImageLine, isTextLine]
  cases hasPrefix line "#".toList <;> cases hasPrefix line "![".toList <;> simp

theorem foldl_extractStep_headlines (lines : List Str) (st : Extracted) :
    (lines.foldl extractStep st).headlines
      = st.headlines ++ (lines.filter isHeadlineLine).map headlineOf := by
  induction lines generalizing st with
  | nil => simp
  | cons l ls ih =>
    rw [List.foldl_cons, ih]
    rcases line_cases l with ⟨h, hi, ht⟩ | ⟨h, hi, ht⟩ | ⟨h, hi, ht⟩
    · simp [extractStep_headline st h, h]
    · simp [extractStep_image st hi, h]
    · simp [extractStep_text st ht, h]

theorem foldl_extractStep_text (lines : List Str) (st : Extracted) :
    (lines.foldl extractStep st).text
      = st.text ++ ((lines.filter isTextLine).map (fun l => l ++ " ".toList)).flatten := by
  induction lines generalizing st with
  | nil => simp
  | cons l ls ih =>
    rw [List.foldl_cons, ih]
    rcases line_cases l with ⟨h, hi, ht⟩ | ⟨h, hi, ht⟩ | ⟨h, hi, ht⟩
    · simp [extractStep_headline st h, ht]
    · simp [extractStep_image st hi, ht]
    · simp [extractStep_text st ht, ht]

theorem foldl_extractStep_image (lines : List Str) (st : Extracted) :
    (lines.foldl extractStep st).image = lastImage st.image lines := by
  induction lines using List.reverseRecOn with
  | nil => simp [lastImage]
  | append_singleton ls l ih =>
    rw [List.foldl_append, List.foldl_cons, List.foldl_nil]
    rcases line_cases l with ⟨h, hi, ht⟩ | ⟨h, hi, ht⟩ | ⟨h, hi, ht⟩
    · rw [extractStep_headline _ h]
      simp [lastImage, List.filter_append, hi, ih]
    · rw [extractStep_image _ hi]
      simp [lastImage, List.filter_append, hi]
    · rw [extractStep_text _ ht]
      simp [lastImage, List.filter_append, hi, ih]


/-! ### Trimming lemmas -/

theorem trimFunc_cons_pos (f : Char → Bool) (a : Char) (x : Str) (h : f a = true) :
    trimFunc (a :: x) f = trimFunc x f := by
  simp [trimFunc, List.dropWhile_cons, h]

theorem trimFunc_append_singleton (f : Char → Bool) (x : Str) (a : Char) (h : f a = true) :
    trimFunc (x ++ [a]) f = trimFunc x f := by
  induction x with
  | nil => simp [trimFunc, List.dropWhile_cons, h]
  | cons c x ih =>
    by_cases hc : f c = true
    · rw [List.cons_append, trimFunc_cons_pos f c _ hc, trimFunc_cons_pos f c _ hc, ih]
    · have e1 : List.dropWhile f (c :: x ++ [a]) = (c :: x) ++ [a] := by
        simp [List.dropWhile_cons, hc]
      have e2 : List.dropWhile f (c :: x) = c :: x := by
        simp [List.dropWhile_cons, hc]
      simp only [trimFunc, e1, e2]
      exact List.rdropWhile_concat_pos f (c :: x) a h

theorem trimFunc_wrapped (f : Char → Bool) (a b : Char) (x : Str)
    (ha : f a = false) (hb : f b = false) :
    trimFunc (a :: (x ++ [b])) f = a :: (x ++ [b]) := by
  have e1 : List.dropWhile f (a :: (x ++ [b])) = (a :: x) ++ [b] := by
    simp [List.dropWhile_cons, ha]
  simp only [trimFunc, e1]
  rw [List.rdropWhile_concat_neg f (a :: x) b (by simp [hb])]
  rfl

theorem imagePath_picture (p : Str) :
    imagePath ("![Picture](".toList ++ p ++ ")".toList) = trim p "()".toList := by
  have e1 : trimPrefix ("![Picture](".toList ++ p ++ ")".toList) "![Picture]".toList
      = '(' :: (p ++ [')']) := by
    simp [trimPrefix, hasPrefix]
  have e2 : trimSpace ('(' :: (p ++ [')'])) = '(' :: (p ++ [')']) :=
    trimFunc_wrapped isSpace '(' ')' p (by decide) (by decide)
  rw [imagePath, e1, e2, trim, trim,
    trimFunc_cons_pos _ '(' _ (by decide),
    trimFunc_append_singleton _ p ')' (by decide)]

theorem flatten_map_append_sep (sep : Str) (ls : List Str) (h : ls ≠ []) :
    (ls.map (fun l => l ++ sep)).flatten = sep.intercalate ls ++ sep := by
  induction ls with
  | nil => exact absurd rfl h
  | cons l ls ih =>
    cases ls with
    | nil => simp [List.intercalate]
    | cons l2 ls =>
      have := ih (by simp)
      simp only [List.map_cons, List.flatten_cons] at this ⊢
      rw [this]
      simp [List.intercalate, List.intersperse]

theorem trimSpace_flatten_sep (ls : List Str) :
    trimSpace ((ls.map (fun l => l ++ " ".toList)).flatten)
      = trimSpace (" ".toList.intercalate ls) := by
  by_cases h : ls = []
  · subst h; rfl
  · rw [flatten_map_append_sep _ ls h]
    exact trimFunc_append_singleton isSpace _ ' ' (by decide)

/-! ### The results of `extractContent` -/

theorem extractContent_headlines (lines : List Str) :
    (extractContent lines).headlines = (lines.filter isHeadlineLine).map headlineOf := by
  simp [extractContent, foldl_extractStep_headlines]

theorem extractContent_text (lines : List Str) :
    (extractContent lines).text
      = trimSpace (" ".toList.intercalate (lines.filter isTextLine)) := by
  rw [← trimSpace_flatten_sep]
  simp [extractContent, foldl_extractStep_text]

theorem extractContent_image (lines : List Str) :
    (extractContent lines).image = lastImage [] lines := by
  simp [extractContent, foldl_extractStep_image]


/-! ### Occurrences of a pattern -/

theorem prefix_of_prefix_append_cons {x : Char} {r : Str} (hx : x ∉ r) (a t : Str)
    (h : r <+: a ++ x :: t) : r <+: a := by
  induction a generalizing r with
  | nil =>
    cases r with
    | nil => exact List.prefix_refl _
    | cons y r =>
      rw [List.nil_append, List.cons_prefix_cons] at h
      exact absurd (h.1 ▸ List.mem_cons_self y r) hx
  | cons d a ih =>
    cases r with
    | nil => exact List.nil_prefix
    | cons y r =>
      rw [List.cons_append, List.cons_prefix_cons] at h
      rw [List.cons_prefix_cons]
      exact ⟨h.1, ih (fun hm => hx (List.mem_cons_of_mem _ hm)) h.2⟩

theorem prefix_append_self {p : Char} {rest : Str} (hp : p ∉ rest) (c : Char) (a b : Str)
    (h : p :: rest <+: c :: a ++ (p :: rest) ++ b) : p :: rest <+: c :: a := by
  rw [List.cons_append, List.cons_append, List.cons_prefix_cons] at h
  rw [List.cons_prefix_cons]
  refine ⟨h.1, ?_⟩
  have h2 : rest <+: a ++ p :: (rest ++ b) := by simpa using h.2
  exact prefix_of_prefix_append_cons hp a _ h2

theorem contains_iff (s sub : Str) : contains s sub = true ↔ sub <:+: s := by
  induction s with
  | nil => simp [contains]
  | cons c cs ih =>
    rw [contains, Bool.or_eq_true, ih, List.infix_cons_iff, List.isPrefixOf_iff_prefix]

theorem contains_eq_false_iff (s sub : Str) : contains s sub = false ↔ ¬ sub <:+: s := by
  rw [← contains_iff]; simp

theorem contains_cons_eq_false {c : Char} {cs sub : Str} (h : contains (c :: cs) sub = false) :
    sub.isPrefixOf (c :: cs) = false ∧ contains cs sub = false := by
  simpa [contains] using h

theorem replaceFirst_of_not_contains (s old new : Str) (h : contains s old = false) :
    replaceFirst s old new = s := by
  induction s with
  | nil =>
    have : old.isPrefixOf [] = false := by simpa [contains] using h
    simp [replaceFirst, this]
  | cons c cs ih =>
    obtain ⟨h1, h2⟩ := contains_cons_eq_false h
    simp [replaceFirst, h1, ih h2]

theorem replaceFirst_at {p : Char} {rest : Str} (hp : p ∉ rest) (a b new : Str)
    (ha : contains a (p :: rest) = false) :
    replaceFirst (a ++ (p :: rest) ++ b) (p :: rest) new = a ++ new ++ b := by
  induction a with
  | nil =>
    simp [replaceFirst]
  | cons c a ih =>
    obtain ⟨h1, h2⟩ := contains_cons_eq_false ha
    have h3 : (p :: rest).isPrefixOf (c :: a ++ (p :: rest) ++ b) = false := by
      rw [Bool.eq_false_iff]
      intro h
      rw [List.isPrefixOf_iff_prefix] at h
      have := prefix_append_self hp c a b h
      rw [← List.isPrefixOf_iff_prefix, h1] at this
      exact Bool.false_ne_true this
    have h4 : c :: a ++ (p :: rest) ++ b = c :: (a ++ (p :: rest) ++ b) := rfl
    rw [h4] at h3 ⊢
    rw [replaceFirst, h3]
    simp only [Bool.false_eq_true, if_false]
    rw [ih h2]
    simp

theorem exists_first_occurrence (s : Str) (p : Char) (rest : Str)
    (h : contains s (p :: rest) = true) :
    ∃ a b, s = a ++ (p :: rest) ++ b ∧ contains a (p :: rest) = false ∧
      ∀ new, replaceFirst s (p :: rest) new = a ++ new ++ b := by
  induction s with
  | nil => simp [contains] at h
  | cons c cs ih =>
    by_cases hpre : (p :: rest).isPrefixOf (c :: cs) = true
    · obtain ⟨t, ht⟩ := List.isPrefixOf_iff_prefix.mp hpre
      refine ⟨[], t, by simpa using ht.symm, by simp [contains], fun new => ?_⟩
      rw [replaceFirst, hpre, if_pos rfl, ← ht]
      simp
    · have hpre2 : (p :: rest).isPrefixOf (c :: cs) = false := Bool.eq_false_iff.mpr hpre
      have hc : contains cs (p :: rest) = true := by
        rw [contains, hpre2, Bool.false_or] at h
        exact h
      obtain ⟨a, b, hs, ha, hr⟩ := ih hc
      refine ⟨c :: a, b, by simp [hs], ?_, fun new => ?_⟩
      · rw [contains, ha, Bool.or_false, Bool.eq_false_iff]
        intro hp
        rw [List.isPrefixOf_iff_prefix] at hp
        have : p :: rest <+: c :: cs := by
          rw [hs]
          exact hp.trans ⟨(p :: rest) ++ b, by simp⟩
        rw [← List.isPrefixOf_iff_prefix, hpre2] at this
        exact Bool.false_ne_true this
      · rw [replaceFirst, hpre2]
        simp only [Bool.false_eq_true, if_false]
        rw [hr new]
        simp

theorem occurrences_eq_zero_iff (s : Str) (p : Char) (rest : Str) :
    occurrences s (p :: rest) = 0 ↔ contains s (p :: rest) = false := by
  induction s with
  | nil => simp [occurrences, contains]
  | cons c cs ih =>
    rw [occurrences, contains, Nat.add_eq_zero_iff, ih, Bool.or_eq_false_iff]
    by_cases h : (p :: rest).isPrefixOf (c :: cs) = true
    · simp [h]
    · simp [h]

theorem occurrences_append_sep {x : Char} {p : Char} {rest : Str} (hx : x ∉ p :: rest)
    (a b : Str) :
    occurrences (a ++ x :: b) (p :: rest) = occurrences a (p :: rest) + occurrences b (p :: rest) := by
  induction a with
  | nil =>
    have h1 : (p :: rest).isPrefixOf (x :: b) = false := by
      rw [Bool.eq_false_iff]
      intro h
      rw [List.isPrefixOf_iff_prefix, List.cons_prefix_cons] at h
      exact hx (h.1 ▸ List.mem_cons_self p rest)
    simp [occurrences, h1]
  | cons c a ih =>
    have h1 : (p :: rest).isPrefixOf (c :: (a ++ x :: b)) = (p :: rest).isPrefixOf (c :: a) := by
      rw [Bool.eq_iff_iff, List.isPrefixOf_iff_prefix, List.isPrefixOf_iff_prefix]
      constructor
      · intro h
        exact prefix_of_prefix_append_cons hx (c :: a) b h
      · intro h
        exact h.trans ⟨x :: b, by simp⟩
    rw [List.cons_append, occurrences, occurrences, h1, ih]
    omega

theorem occurrences_skip {p : Char} {rest : Str} (u b : Str) (hu : p ∉ u) :
    occurrences (u ++ b) (p :: rest) = occurrences b (p :: rest) := by
  induction u with
  | nil => rfl
  | cons c u ih =>
    have h1 : (p :: rest).isPrefixOf (c :: (u ++ b)) = false := by
      rw [Bool.eq_false_iff]
      intro h
      rw [List.isPrefixOf_iff_prefix, List.cons_prefix_cons] at h
      exact hu (h.1 ▸ List.mem_cons_self c u)
    rw [List.cons_append, occurrences, h1, ih (fun hm => hu (List.mem_cons_of_mem _ hm))]
    simp

theorem occurrences_of_not_mem {p : Char} {rest : Str} (u : Str) (hu : p ∉ u) :
    occurrences u (p :: rest) = 0 := by
  have := @occurrences_skip p rest u [] hu
  simpa [occurrences] using this

theorem occurrences_append_pattern {p : Char} {rest : Str} (hp : p ∉ rest) (a b : Str) :
    occurrences (a ++ (p :: rest) ++ b) (p :: rest)
      = occurrences a (p :: rest) + 1 + occurrences b (p :: rest) := by
  induction a with
  | nil =>
    have h1 : (p :: rest).isPrefixOf (p :: (rest ++ b)) = true := by
      rw [List.isPrefixOf_iff_prefix]
      exact ⟨b, by simp⟩
    have h2 := @occurrences_skip p rest rest b hp
    simp [occurrences, h1, h2]
  | cons c a ih =>
    have h1 : (p :: rest).isPrefixOf (c :: (a ++ (p :: rest) ++ b))
        = (p :: rest).isPrefixOf (c :: a) := by
      rw [Bool.eq_iff_iff, List.isPrefixOf_iff_prefix, List.isPrefixOf_iff_prefix]
      constructor
      · intro h
        exact prefix_append_self hp c a b h
      · intro h
        exact h.trans ⟨(p :: rest) ++ b, by simp⟩
    have h4 : c :: a ++ (p :: rest) ++ b = c :: (a ++ (p :: rest) ++ b) := rfl
    rw [h4, occurrences, occurrences, h1, ih]
    omega

/-! ### Decimal digits -/

theorem digitChar_mem (d : Nat) : digitChar d ∈ "0123456789".toList := by
  have h : d % 10 < 10 := Nat.mod_lt _ (by decide)
  unfold digitChar
  generalize d % 10 = k at h
  interval_cases k <;> decide

theorem natDigitsAux_mem (fuel n : Nat) (acc : Str) (c : Char)
    (h : c ∈ natDigitsAux fuel n acc) : c ∈ "0123456789".toList ∨ c ∈ acc := by
  induction fuel generalizing n acc with
  | zero =>
    rw [natDigitsAux, List.mem_cons] at h
    rcases h with h | h
    · exact Or.inl (h ▸ digitChar_mem n)
    · exact Or.inr h
  | succ fuel ih =>
    rw [natDigitsAux] at h
    split at h
    · rw [List.mem_cons] at h
      rcases h with h | h
      · exact Or.inl (h ▸ digitChar_mem n)
      · exact Or.inr h
    · rcases ih _ _ h with h | h
      · exact Or.inl h
      · rw [List.mem_cons] at h
        rcases h with h | h
        · exact Or.inl (h ▸ digitChar_mem n)
        · exact Or.inr h

theorem natDigits_mem (n : Nat) (c : Char) (h : c ∈ natDigits n) :
    c ∈ "0123456789".toList := by
  rcases natDigitsAux_mem n n [] c h with h | h
  · exact h
  · simp at h

theorem formatInt_mem (x : Int) (c : Char) (h : c ∈ formatInt x) :
    c ∈ "-0123456789".toList := by
  unfold formatInt at h
  split at h
  · rw [List.mem_cons] at h
    rcases h with h | h
    · subst h; decide
    · exact List.mem_cons_of_mem _ (natDigits_mem _ _ h)
  · exact List.mem_cons_of_mem _ (natDigits_mem _ _ h)

theorem not_mem_formatInt (x : Int) (c : Char) (hc : c ∉ "-0123456789".toList) :
    c ∉ formatInt x :=
  fun h => hc (formatInt_mem x c h)

/-! ### The placeholders -/

theorem placeholderHeadline_eq :
    placeholderHeadline = 'P' :: "laceholder Headline".toList := by decide

theorem placeholderText_eq : placeholderText = 'T' :: "est text".toList := by decide

theorem occurrences_headlineTag (a b : Str) (h : HeadlineInfo)
    (hc : contains h.Content placeholderHeadline = false) :
    occurrences (a ++ headlineTag h ++ b) placeholderHeadline
      = occurrences a placeholderHeadline + occurrences b placeholderHeadline := by
  have e : a ++ headlineTag h ++ b
      = a ++ '<' :: (('h' :: formatInt h.Level) ++ '>' :: (h.Content ++
          '<' :: (('/' :: 'h' :: formatInt h.Level) ++ '>' :: b))) := by
    simp [headlineTag]
  have hP : 'P' ∉ formatInt h.Level := not_mem_formatInt _ _ (by decide)
  rw [placeholderHeadline_eq] at hc ⊢
  rw [e, occurrences_append_sep (by decide), occurrences_append_sep (by decide),
    occurrences_append_sep (by decide), occurrences_append_sep (by decide),
    occurrences_of_not_mem ('h' :: formatInt h.Level) (by simp [hP]),
    occurrences_of_not_mem ('/' :: 'h' :: formatInt h.Level) (by simp [hP]),
    (occurrences_eq_zero_iff _ _ _).mpr hc]
  omega

theorem occurrences_paragraph (pat : Str) (p : Char) (rest : Str) (hpat : pat = p :: rest)
    (hlt : '<' ∉ pat) (hgt : '>' ∉ pat) (hp : p ∉ "p".toList) (hp2 : p ∉ "/p".toList)
    (a b text : Str) (ht : contains text pat = false) :
    occurrences (a ++ ("<p>".toList ++ text ++ "</p>".toList) ++ b) pat
      = occurrences a pat + occurrences b pat := by
  have e : a ++ ("<p>".toList ++ text ++ "</p>".toList) ++ b
      = a ++ '<' :: ("p".toList ++ '>' :: (text ++ '<' :: ("/p".toList ++ '>' :: b))) := by
    simp
  subst hpat
  rw [e, occurrences_append_sep hlt, occurrences_append_sep hgt,
    occurrences_append_sep hlt, occurrences_append_sep hgt,
    occurrences_of_not_mem _ hp, occurrences_of_not_mem _ hp2,
    (occurrences_eq_zero_iff _ _ _).mpr ht]
  omega

theorem occurrences_imgTag (pat : Str) (p : Char) (rest : Str) (hpat : pat = p :: rest)
    (hlt : '<' ∉ pat) (hgt : '>' ∉ pat) (hq : '"' ∉ pat)
    (hp : p ∉ "img src=".toList) (hp2 : p ∉ " alt=".toList)
    (hp3 : contains "Picture".toList pat = false)
    (a b image : Str) (ht : contains image pat = false) :
    occurrences (a ++ ("<img src=\"".toList ++ image ++ "\" alt=\"Picture\">".toList) ++ b) pat
      = occurrences a pat + occurrences b pat := by
  have e : a ++ ("<img src=\"".toList ++ image ++ "\" alt=\"Picture\">".toList) ++ b
      = a ++ '<' :: ("img src=".toList ++ '"' :: (image ++ '"' :: (" alt=".toList ++
          '"' :: ("Picture".toList ++ '"' :: ([] ++ '>' :: b))))) := by
    simp
  subst hpat
  rw [e, occurrences_append_sep hlt, occurrences_append_sep hq,
    occurrences_append_sep hq, occurrences_append_sep hq, occurrences_append_sep hq,
    occurrences_append_sep hgt,
    occurrences_of_not_mem _ hp, occurrences_of_not_mem _ hp2,
    (occurrences_eq_zero_iff _ _ _).mpr hp3, (occurrences_eq_zero_iff _ _ _).mpr ht]
  simp [occurrences]

/-! ### Headline substitution -/

theorem replaceHeadlines_cons (s : Str) (h : HeadlineInfo) (hs : List HeadlineInfo) :
    replaceHeadlines s (h :: hs)
      = replaceHeadlines (replaceFirst s placeholderHeadline (headlineTag h)) hs := rfl

theorem occurrences_replaceFirst_headlineTag (s : Str) (h : HeadlineInfo)
    (hc : contains h.Content placeholderHeadline = false) :
    occurrences (replaceFirst s placeholderHeadline (headlineTag h)) placeholderHeadline
      = occurrences s placeholderHeadline - 1 := by
  by_cases hs : contains s placeholderHeadline = true
  · rw [placeholderHeadline_eq] at hs
    obtain ⟨a, b, e, _, hr⟩ := exists_first_occurrence s _ _ hs
    have h1 := occurrences_headlineTag a b h hc
    have h2 := @occurrences_append_pattern 'P' "laceholder Headline".toList
      (by decide) a b
    rw [← placeholderHeadline_eq] at hr e h2
    rw [hr, h1, e, h2]
    omega
  · have hs2 : contains s placeholderHeadline = false := Bool.eq_false_iff.mpr hs
    rw [replaceFirst_of_not_contains _ _ _ hs2]
    rw [placeholderHeadline_eq] at hs2 ⊢
    rw [(occurrences_eq_zero_iff _ _ _).mpr hs2]

theorem occurrences_replaceHeadlines (s : Str) (hs : List HeadlineInfo)
    (hc : ∀ h ∈ hs, contains h.Content placeholderHeadline = false) :
    occurrences (replaceHeadlines s hs) placeholderHeadline
      = occurrences s placeholderHeadline - hs.length := by
  induction hs generalizing s with
  | nil => rfl
  | cons h hs ih =>
    rw [replaceHeadlines_cons, ih _ (fun x hx => hc x (List.mem_cons_of_mem _ hx)),
      occurrences_replaceFirst_headlineTag s h (hc h (List.mem_cons_self _ _)),
      List.length_cons]
    omega

theorem zipWith_replicate_left (f : Str → Str → Str) (a : Str) (segs : List Str) :
    List.zipWith f (List.replicate segs.length a) segs = segs.map (f a) := by
  induction segs with
  | nil => rfl
  | cons s segs ih => simp [List.replicate_succ, ih]

theorem replaceHeadlines_templateOf (s0 : Str) (segs : List Str) (hs : List HeadlineInfo)
    (h0 : contains s0 placeholderHeadline = false)
    (hseg : ∀ s ∈ segs, contains s placeholderHeadline = false)
    (hc : ∀ h ∈ hs, contains h.Content placeholderHeadline = false) :
    replaceHeadlines (templateOf s0 segs) hs
      = filledTemplate s0 (headlineFills hs segs.length) segs := by
  induction hs generalizing s0 segs with
  | nil =>
    simp [replaceHeadlines, templateOf, filledTemplate, headlineFills, zipWith_replicate_left]
  | cons h hs ih =>
    have hc2 : ∀ x ∈ hs, contains x.Content placeholderHeadline = false :=
      fun x hx => hc x (List.mem_cons_of_mem _ hx)
    cases segs with
    | nil =>
      have e : templateOf s0 [] = s0 := by simp [templateOf]
      rw [replaceHeadlines_cons, e, replaceFirst_of_not_contains _ _ _ h0]
      have := ih s0 [] h0 (by simp) hc2
      rw [e] at this
      rw [this]
      simp [filledTemplate]
    | cons s segs =>
      have hs0 : contains s placeholderHeadline = false := hseg s (List.mem_cons_self _ _)
      have hseg2 : ∀ x ∈ segs, contains x placeholderHeadline = false :=
        fun x hx => hseg x (List.mem_cons_of_mem _ hx)
      have e : templateOf s0 (s :: segs)
          = s0 ++ placeholderHeadline
              ++ (s ++ (segs.map (fun s => placeholderHeadline ++ s)).flatten) := by
        simp [templateOf]
      have hfree : contains (s0 ++ headlineTag h ++ s) placeholderHeadline = false := by
        have h1 := occurrences_headlineTag s0 s h (hc h (List.mem_cons_self _ _))
        rw [placeholderHeadline_eq] at h0 hs0 h1 ⊢
        rw [← occurrences_eq_zero_iff, h1, (occurrences_eq_zero_iff _ _ _).mpr h0,
          (occurrences_eq_zero_iff _ _ _).mpr hs0]
      have hstep : replaceFirst (templateOf s0 (s :: segs)) placeholderHeadline (headlineTag h)
          = templateOf (s0 ++ headlineTag h ++ s) segs := by
        rw [e]
        rw [placeholderHeadline_eq] at h0 ⊢
        rw [replaceFirst_at (by decide) _ _ _ h0]
        simp [templateOf, placeholderHeadline_eq]
      rw [replaceHeadlines_cons, hstep, ih _ segs hfree hseg2 hc2]
      simp [filledTemplate, headlineFills]

/-! ### Text and image substitution -/

theorem occurrences_around_text (a b : Str) :
    occurrences (a ++ placeholderText ++ b) placeholderHeadline
      = occurrences a placeholderHeadline + occurrences b placeholderHeadline := by
  have e : a ++ placeholderText ++ b = a ++ 'T' :: ("est text".toList ++ b) := by
    simp [placeholderText_eq]
  rw [e, placeholderHeadline_eq, occurrences_append_sep (by decide),
    occurrences_skip _ _ (by decide)]

theorem occurrences_replaceText (s text : Str)
    (ht : contains text placeholderHeadline = false) :
    occurrences (replaceText s text) placeholderHeadline
      = occurrences s placeholderHeadline := by
  by_cases hs : contains s placeholderText = true
  · rw [placeholderText_eq] at hs
    obtain ⟨a, b, e, _, hr⟩ := exists_first_occurrence s _ _ hs
    rw [← placeholderText_eq] at hr e
    rw [replaceText, hr, e, occurrences_around_text]
    exact occurrences_paragraph placeholderHeadline 'P' _ placeholderHeadline_eq
      (by decide) (by decide) (by decide) (by decide) a b text ht
  · rw [replaceText, replaceFirst_of_not_contains _ _ _ (Bool.eq_false_iff.mpr hs)]

theorem occurrences_replaceImage (s image : Str)
    (hi : contains image placeholderHeadline = false) :
    occurrences (replaceImage s image) placeholderHeadline
      = occurrences s placeholderHeadline := by
  by_cases hs : contains s placeholderText = true
  · rw [placeholderText_eq] at hs
    obtain ⟨a, b, e, _, hr⟩ := exists_first_occurrence s _ _ hs
    rw [← placeholderText_eq] at hr e
    rw [replaceImage, hr, e, occurrences_around_text]
    exact occurrences_imgTag placeholderHeadline 'P' _ placeholderHeadline_eq
      (by decide) (by decide) (by decide) (by decide) (by decide) (by decide) a b image hi
  · rw [replaceImage, replaceFirst_of_not_contains _ _ _ (Bool.eq_false_iff.mpr hs)]

theorem occurrences_renderBody (tpl : Str) (doc : Extracted)
    (hc : ∀ h ∈ doc.headlines, contains h.Content placeholderHeadline = false)
    (ht : contains doc.text placeholderHeadline = false)
    (hi : contains doc.image placeholderHeadline = false) :
    occurrences (renderBody tpl doc) placeholderHeadline
      = occurrences tpl placeholderHeadline - doc.headlines.length := by
  rw [renderBody, occurrences_replaceImage _ _ hi, occurrences_replaceText _ _ ht,
    occurrences_replaceHeadlines _ _ hc]


/-! ### Zero-padded decimal fields -/

theorem natDigitsAux_lt (fuel n : Nat) (acc : Str) (h : n < 10) :
    natDigitsAux fuel n acc = digitChar n :: acc := by
  cases fuel with
  | zero => rfl
  | succ fuel => rw [natDigitsAux, if_pos h]

theorem natDigitsAux_ge (fuel n : Nat) (acc : Str) (h : 10 ≤ n) :
    natDigitsAux (fuel + 1) n acc = natDigitsAux fuel (n / 10) (digitChar n :: acc) := by
  rw [natDigitsAux, if_neg (by omega)]

theorem digitChar_zero : digitChar 0 = '0' := by decide

theorem natDigits_lt_100 (n : Nat) (h : n < 100) :
    List.replicate (2 - (natDigits n).length) '0' ++ natDigits n
      = [digitChar (n / 10), digitChar n] := by
  by_cases h1 : n < 10
  · have e : natDigits n = [digitChar n] := natDigitsAux_lt n n [] h1
    have e0 : n / 10 = 0 := by omega
    rw [e, e0, digitChar_zero]
    rfl
  · obtain ⟨k, rfl⟩ : ∃ k, n = k + 1 := ⟨n - 1, by omega⟩
    have e : natDigits (k + 1) = [digitChar ((k + 1) / 10), digitChar (k + 1)] := by
      rw [natDigits, natDigitsAux_ge _ _ _ (by omega), natDigitsAux_lt _ _ _ (by omega)]
    rw [e]
    rfl

theorem natDigits_lt_10000 (n : Nat) (h : n < 10000) :
    List.replicate (4 - (natDigits n).length) '0' ++ natDigits n
      = [digitChar (n / 1000), digitChar (n / 100), digitChar (n / 10), digitChar n] := by
  by_cases h1 : n < 10
  · have e : natDigits n = [digitChar n] := natDigitsAux_lt n n [] h1
    have e1 : n / 10 = 0 := by omega
    have e2 : n / 100 = 0 := by omega
    have e3 : n / 1000 = 0 := by omega
    rw [e, e1, e2, e3, digitChar_zero]
    rfl
  · by_cases h2 : n < 100
    · obtain ⟨k, rfl⟩ : ∃ k, n = k + 1 := ⟨n - 1, by omega⟩
      have e : natDigits (k + 1) = [digitChar ((k + 1) / 10), digitChar (k + 1)] := by
        rw [natDigits, natDigitsAux_ge _ _ _ (by omega), natDigitsAux_lt _ _ _ (by omega)]
      have e2 : (k + 1) / 100 = 0 := by omega
      have e3 : (k + 1) / 1000 = 0 := by omega
      rw [e, e2, e3, digitChar_zero]
      rfl
    · by_cases h3 : n < 1000
      · obtain ⟨k, rfl⟩ : ∃ k, n = k + 2 := ⟨n - 2, by omega⟩
        have e : natDigits (k + 2)
            = [digitChar ((k + 2) / 100), digitChar ((k + 2) / 10), digitChar (k + 2)] := by
          have q1 : (k + 2) / 10 / 10 = (k + 2) / 100 := by omega
          rw [natDigits, natDigitsAux_ge _ _ _ (by omega), natDigitsAux_ge _ _ _ (by omega),
            natDigitsAux_lt _ _ _ (by omega), q1]
        have e3 : (k + 2) / 1000 = 0 := by omega
        rw [e, e3, digitChar_zero]
        rfl
      · obtain ⟨k, rfl⟩ : ∃ k, n = k + 3 := ⟨n - 3, by omega⟩
        have e : natDigits (k + 3)
            = [digitChar ((k + 3) / 1000), digitChar ((k + 3) / 100),
                digitChar ((k + 3) / 10), digitChar (k + 3)] := by
          have q1 : (k + 3) / 10 / 10 = (k + 3) / 100 := by omega
          have q2 : (k + 3) / 10 / 10 / 10 = (k + 3) / 1000 := by omega
          rw [natDigits, natDigitsAux_ge _ _ _ (by omega), natDigitsAux_ge _ _ _ (by omega),
            natDigitsAux_ge _ _ _ (by omega), natDigitsAux_lt _ _ _ (by omega), q2, q1]
        rw [e]
        rfl

theorem appendInt_mem (x : Int) (width : Nat) (c : Char) (h : c ∈ appendInt x width) :
    c ∈ "-0123456789".toList := by
  simp only [appendInt, List.mem_append, List.mem_replicate] at h
  rcases h with (h | h) | h
  · split at h
    · simp at h; subst h; decide
    · simp at h
  · rw [h.2]; decide
  · exact List.mem_cons_of_mem _ (natDigits_mem _ _ h)

theorem natDigitsAux_ne_nil (fuel n : Nat) (acc : Str) : natDigitsAux fuel n acc ≠ [] := by
  induction fuel generalizing n acc with
  | zero => simp [natDigitsAux]
  | succ fuel ih =>
    rw [natDigitsAux]
    split
    · simp
    · exact ih _ _

theorem appendInt_ne_nil (x : Int) (width : Nat) : appendInt x width ≠ [] := by
  simp [appendInt, natDigits, natDigitsAux_ne_nil]

/-! ### Cleaning a path extended by one element -/

theorem splitSlash_ne_nil (s : Str) : splitSlash s ≠ [] := by
  cases s with
  | nil => simp [splitSlash]
  | cons c cs =>
    rw [splitSlash]
    split <;> simp

theorem splitSlash_append_slash (r e : Str) :
    splitSlash (r ++ '/' :: e) = splitSlash r ++ splitSlash e := by
  induction r with
  | nil => simp [splitSlash]
  | cons c r ih =>
    rw [List.cons_append, splitSlash, splitSlash, ih]
    by_cases hc : c = '/'
    · simp [hc]
    · simp only [hc, if_false]
      cases hs : splitSlash r with
      | nil => exact absurd hs (splitSlash_ne_nil r)
      | cons x xs => simp

theorem splitSlash_of_not_mem (e : Str) (h : '/' ∉ e) : splitSlash e = [e] := by
  induction e with
  | nil => rfl
  | cons c e ih =>
    have hc : c ≠ '/' := fun hc => h (hc ▸ List.mem_cons_self c e)
    rw [splitSlash, if_neg hc, ih (fun hm => h (List.mem_cons_of_mem _ hm))]
    rfl

theorem cleanStep_plain (rooted : Bool) (stack : List Str) (e : Str) (h : PlainElem e) :
    cleanStep rooted stack e = stack ++ [e] := by
  obtain ⟨h1, _, h3, h4⟩ := h
  simp only [cleanStep, h1, h3, h4, false_or, if_false]

theorem cleanElems_append_elem (rooted : Bool) (r e : Str) (he : PlainElem e) :
    cleanElems rooted (r ++ '/' :: e) = cleanElems rooted r ++ [e] := by
  rw [cleanElems, splitSlash_append_slash, splitSlash_of_not_mem e he.2.1, List.foldl_append,
    List.foldl_cons, List.foldl_nil, cleanStep_plain _ _ _ he]
  rfl

theorem intercalate_append_singleton (sep : Str) (s : Str) (S : List Str) (e : Str) :
    sep.intercalate ((s :: S) ++ [e]) = sep.intercalate (s :: S) ++ sep ++ e := by
  induction S generalizing s with
  | nil => simp [List.intercalate, List.intersperse]
  | cons t S ih =>
    have h1 : sep.intercalate ((s :: t :: S) ++ [e])
        = s ++ sep ++ sep.intercalate ((t :: S) ++ [e]) := by
      simp [List.intercalate, List.intersperse]
    have h2 : sep.intercalate (s :: t :: S) = s ++ sep ++ sep.intercalate (t :: S) := by
      simp [List.intercalate, List.intersperse]
    rw [h1, h2, ih]
    simp

theorem cleanOut_append_elem (rooted : Bool) (s : Str) (S : List Str) (e : Str) :
    cleanOut rooted ((s :: S) ++ [e]) = cleanOut rooted (s :: S) ++ '/' :: e := by
  rw [cleanOut, cleanOut, intercalate_append_singleton]
  simp

theorem isRooted_append (c : Char) (r t : Str) : isRooted (c :: r ++ t) = isRooted (c :: r) := rfl

theorem clean_append_elem (r e : Str) (hr : clean r = r) (hdot : r ≠ ".".toList)
    (hroot : r ≠ "/".toList) (he : PlainElem e) :
    clean (r ++ '/' :: e) = r ++ '/' :: e := by
  have hne : r ≠ [] := by
    intro h
    rw [h] at hr
    exact absurd hr (by decide)
  obtain ⟨c, r', rfl⟩ := List.exists_cons_of_ne_nil hne
  have hout : cleanOut (isRooted (c :: r')) (cleanElems (isRooted (c :: r')) (c :: r'))
      = c :: r' := by
    rw [clean, if_neg hne] at hr
    by_cases h0 : cleanOut (isRooted (c :: r')) (cleanElems (isRooted (c :: r')) (c :: r')) = []
    · simp only [h0, if_true] at hr
      exact absurd hr.symm hdot
    · simpa only [h0, if_false] using hr
  have hne2 : c :: r' ++ '/' :: e ≠ [] := by simp
  rw [clean, if_neg hne2, isRooted_append, cleanElems_append_elem _ _ _ he]
  cases hS : cleanElems (isRooted (c :: r')) (c :: r') with
  | nil =>
    rw [hS] at hout
    by_cases hc : isRooted (c :: r') = true
    · rw [cleanOut, hc] at hout
      exact absurd hout.symm hroot
    · rw [cleanOut, if_neg hc] at hout
      exact absurd hout.symm hne
  | cons s S =>
    rw [hS] at hout
    rw [cleanOut_append_elem, hout]
    simp

theorem joinPath_pair (r e : Str) (hr : r ≠ []) :
    joinPath [r, e] = clean (r ++ '/' :: e) := by
  simp [joinPath, List.dropWhile_cons, hr, List.intercalate, List.intersperse]

theorem joinPath_clean_elem (r e : Str) (hr : clean r = r) (hdot : r ≠ ".".toList)
    (hroot : r ≠ "/".toList) (he : PlainElem e) :
    joinPath [r, e] = r ++ '/' :: e ∧ clean (r ++ '/' :: e) = r ++ '/' :: e ∧
      r ++ '/' :: e ≠ ".".toList ∧ r ++ '/' :: e ≠ "/".toList := by
  have hne : r ≠ [] := by
    intro h
    rw [h] at hr
    exact absurd hr (by decide)
  have hc := clean_append_elem r e hr hdot hroot he
  have hlen : 2 ≤ (r ++ '/' :: e).length := by
    have : 0 < r.length := List.length_pos.mpr hne
    simp only [List.length_append, List.length_cons]
    omega
  refine ⟨by rw [joinPath_pair r e hne, hc], hc, ?_, ?_⟩
  · intro h
    rw [h] at hlen
    exact absurd hlen (by decide)
  · intro h
    rw [h] at hlen
    exact absurd hlen (by decide)

theorem plainElem_of_mem (e : Str) (c : Char) (hc : c ∈ e) (hdot : c ≠ '.')
    (hslash : '/' ∉ e) : PlainElem e := by
  refine ⟨List.ne_nil_of_mem hc, hslash, ?_, ?_⟩
  · intro h
    rw [h] at hc
    simp at hc
    exact hdot hc
  · intro h
    rw [h] at hc
    simp at hc
    exact hdot hc

theorem plainElem_formatYear (t : ModTime) : PlainElem (formatYear t) := by
  obtain ⟨c, cs, h⟩ := List.exists_cons_of_ne_nil (appendInt_ne_nil t.year 4)
  have hc : c ∈ formatYear t := by rw [formatYear, h]; exact List.mem_cons_self _ _
  refine plainElem_of_mem _ c hc ?_ ?_
  · intro hd
    have := appendInt_mem _ _ _ hc
    rw [hd] at this
    revert this
    decide
  · intro hs
    have := appendInt_mem _ _ _ hs
    revert this
    decide

theorem not_mem_longMonthNames (i : Nat) : '/' ∉ longMonthNames.getD i [] := by
  by_cases h : i < 12
  · interval_cases i <;> decide
  · have : longMonthNames.getD i [] = [] := by
      rw [List.getD_eq_getElem?_getD, List.getElem?_eq_none]
      · rfl
      · simp [longMonthNames]; omega
    rw [this]
    simp

theorem plainElem_formatMonth (t : ModTime) : PlainElem (formatMonth t) := by
  refine plainElem_of_mem _ '-' (by simp [formatMonth]) (by decide) ?_
  intro hs
  simp only [formatMonth, List.mem_append] at hs
  rcases hs with (hs | hs) | hs
  · have := appendInt_mem _ _ _ hs
    revert this
    decide
  · revert hs
    decide
  · exact not_mem_longMonthNames _ hs

theorem plainElem_fileName (t : ModTime) (name : Str) (hname : '/' ∉ name) :
    PlainElem (formatHour t ++ "_".toList ++ name) := by
  refine plainElem_of_mem _ '_' (by simp) (by decide) ?_
  intro hs
  simp only [List.mem_append] at hs
  rcases hs with (hs | hs) | hs
  · have := appendInt_mem _ _ _ hs
    revert this
    decide
  · revert hs
    decide
  · exact hname hs

theorem organizeDestPath_eq (destinationFolder path : Str) (info : FileInfo)
    (hclean : clean destinationFolder = destinationFolder)
    (hdot : destinationFolder ≠ ".".toList) (hroot : destinationFolder ≠ "/".toList)
    (hname : '/' ∉ info.name) :
    organizeDestPath destinationFolder path info
      = destinationFolder ++ '/' :: formatYear info.modTime ++ '/' :: formatMonth info.modTime
          ++ '/' :: (formatHour info.modTime ++ "_".toList ++ info.name) := by
  obtain ⟨y1, y2, y3, y4⟩ := joinPath_clean_elem destinationFolder _ hclean hdot hroot
    (plainElem_formatYear info.modTime)
  obtain ⟨m1, m2, m3, m4⟩ := joinPath_clean_elem _ _ y2 y3 y4 (plainElem_formatMonth info.modTime)
  obtain ⟨f1, _, _, _⟩ := joinPath_clean_elem _ _ m2 m3 m4
    (plainElem_fileName info.modTime info.name hname)
  simp only [organizeDestPath]
  rw [y1, m1, f1]

theorem formatYear_four_digits (t : ModTime) (h0 : 0 ≤ t.year) (h1 : t.year ≤ 9999) :
    formatYear t = [digitChar (t.year.toNat / 1000), digitChar (t.year.toNat / 100),
      digitChar (t.year.toNat / 10), digitChar t.year.toNat] := by
  have e : t.year.natAbs = t.year.toNat := by omega
  have := natDigits_lt_10000 t.year.toNat (by omega)
  simp only [formatYear, appendInt, e, if_neg (not_lt.mpr h0)]
  simpa using this

theorem appendInt_two_digits (n : Nat) (h : n < 100) :
    appendInt (n : Int) 2 = [digitChar (n / 10), digitChar n] := by
  have := natDigits_lt_100 n h
  have hn : ¬ ((n : Int) < 0) := by omega
  simp only [appendInt, Int.natAbs_ofNat, if_neg hn]
  simpa using this


/-! ### `filepath.Clean` on a cleaned path -/

theorem splitSlash_no_slash (s : Str) : ∀ e ∈ splitSlash s, '/' ∉ e := by
  induction s with
  | nil => simp [splitSlash]
  | cons c cs ih =>
    intro e he
    rw [splitSlash] at he
    by_cases hc : c = '/'
    · rw [if_pos hc, List.mem_cons] at he
      rcases he with he | he
      · rw [he]; simp
      · exact ih e he
    · rw [if_neg hc] at he
      obtain ⟨x, xs, hx⟩ := List.exists_cons_of_ne_nil (splitSlash_ne_nil cs)
      rw [hx] at he ih
      simp only [List.headD_cons, List.tail_cons, List.mem_cons] at he
      rcases he with he | he
      · rw [he, List.mem_cons, not_or]
        exact ⟨fun h => hc h.symm, ih x (List.mem_cons_self _ _)⟩
      · exact ih e (List.mem_cons_of_mem _ he)

theorem cleanStack_nil (rooted : Bool) : CleanStack rooted [] :=
  ⟨0, [], rfl, by simp, fun _ => rfl⟩

theorem cleanStack_append_plain (rooted : Bool) (T : List Str) (e : Str)
    (hT : CleanStack rooted T) (he : PlainElem e) : CleanStack rooted (T ++ [e]) := by
  obtain ⟨k, U, rfl, hU, hk⟩ := hT
  refine ⟨k, U ++ [e], by simp, ?_, hk⟩
  intro u hu
  rw [List.mem_append, List.mem_singleton] at hu
  rcases hu with hu | hu
  · exact hU u hu
  · exact hu ▸ he

theorem cleanStep_cleanStack (rooted : Bool) (T : List Str) (e : Str)
    (hT : CleanStack rooted T) (he : '/' ∉ e) : CleanStack rooted (cleanStep rooted T e) := by
  by_cases h1 : e = [] ∨ e = ".".toList
  · rw [cleanStep, if_pos h1]
    exact hT
  · by_cases h2 : e = "..".toList
    · rw [cleanStep, if_neg h1, if_pos h2]
      obtain ⟨k, U, rfl, hU, hk⟩ := hT
      rcases List.eq_nil_or_concat U with hU0 | ⟨U', u, hU1⟩
      · subst hU0
        rw [List.append_nil]
        cases k with
        | zero =>
          simp only [List.replicate_zero, List.getLast?_nil]
          cases rooted with
          | true => exact cleanStack_nil _
          | false => exact ⟨1, [], rfl, by simp, fun h => absurd h (by decide)⟩
        | succ k =>
          rw [List.replicate_succ', List.getLast?_concat]
          simp only [ne_eq, not_true_eq_false, if_false]
          cases rooted with
          | true => exact absurd (hk rfl) (by simp)
          | false =>
            refine ⟨k + 2, [], ?_, by simp, fun h => absurd h (by decide)⟩
            simp [List.replicate_succ']
      · rw [List.concat_eq_append] at hU1
        subst hU1
        have hu : PlainElem u := hU u (by simp)
        rw [← List.append_assoc, List.getLast?_concat]
        simp only [ne_eq, hu.2.2.2, not_false_eq_true, if_true, List.dropLast_concat]
        exact ⟨k, U', rfl, fun x hx => hU x (by simp [hx]), hk⟩
    · rw [cleanStep_plain rooted T e ⟨fun h => h1 (Or.inl h), he, fun h => h1 (Or.inr h), h2⟩]
      exact cleanStack_append_plain rooted T e hT
        ⟨fun h => h1 (Or.inl h), he, fun h => h1 (Or.inr h), h2⟩

theorem foldl_cleanStep_cleanStack (rooted : Bool) (es : List Str) (T : List Str)
    (hT : CleanStack rooted T) (hes : ∀ e ∈ es, '/' ∉ e) :
    CleanStack rooted (es.foldl (cleanStep rooted) T) := by
  induction es generalizing T with
  | nil => exact hT
  | cons e es ih =>
    rw [List.foldl_cons]
    exact ih _ (cleanStep_cleanStack rooted T e hT (hes e (List.mem_cons_self _ _)))
      (fun x hx => hes x (List.mem_cons_of_mem _ hx))

theorem cleanStack_cleanElems (rooted : Bool) (x : Str) :
    CleanStack rooted (cleanElems rooted x) :=
  foldl_cleanStep_cleanStack rooted _ [] (cleanStack_nil rooted) (splitSlash_no_slash x)

theorem foldl_cleanStep_plain (rooted : Bool) (U : List Str) (acc : List Str)
    (hU : ∀ u ∈ U, PlainElem u) : U.foldl (cleanStep rooted) acc = acc ++ U := by
  induction U generalizing acc with
  | nil => simp
  | cons u U ih =>
    rw [List.foldl_cons, cleanStep_plain rooted acc u (hU u (List.mem_cons_self _ _)),
      ih _ (fun x hx => hU x (List.mem_cons_of_mem _ hx))]
    simp

theorem foldl_cleanStep_dotdot (k j : Nat) :
    (List.replicate k "..".toList).foldl (cleanStep false) (List.replicate j "..".toList)
      = List.replicate (j + k) "..".toList := by
  induction k generalizing j with
  | zero => rfl
  | succ k ih =>
    have hstep : cleanStep false (List.replicate j "..".toList) "..".toList
        = List.replicate (j + 1) "..".toList := by
      rw [cleanStep, if_neg (by decide), if_pos rfl]
      cases j with
      | zero => rfl
      | succ j =>
        rw [List.replicate_succ', List.getLast?_concat]
        simp [List.replicate_succ']
    rw [List.replicate_succ, List.foldl_cons, hstep, ih]
    congr 1
    omega

theorem foldl_cleanStep_of_cleanStack (rooted : Bool) (T : List Str)
    (hT : CleanStack rooted T) : T.foldl (cleanStep rooted) [] = T := by
  obtain ⟨k, U, rfl, hU, hk⟩ := hT
  rw [List.foldl_append]
  cases rooted with
  | true =>
    rw [hk rfl]
    simp [foldl_cleanStep_plain true U [] hU]
  | false =>
    have := foldl_cleanStep_dotdot k 0
    rw [List.replicate_zero, Nat.zero_add] at this
    rw [this, foldl_cleanStep_plain false U _ hU]

theorem cleanStack_mem (rooted : Bool) (T : List Str) (hT : CleanStack rooted T) :
    ∀ t ∈ T, t ≠ [] ∧ '/' ∉ t := by
  obtain ⟨k, U, rfl, hU, _⟩ := hT
  intro t ht
  rw [List.mem_append] at ht
  rcases ht with ht | ht
  · rw [(List.mem_replicate.mp ht).2]
    decide
  · exact ⟨(hU t ht).1, (hU t ht).2.1⟩

theorem intercalate_cons_cons (sep s t : Str) (T : List Str) :
    sep.intercalate (s :: t :: T) = s ++ sep ++ sep.intercalate (t :: T) := by
  simp [List.intercalate, List.intersperse]

theorem splitSlash_intercalate (T : List Str) (hne : T ≠ []) (hT : ∀ t ∈ T, '/' ∉ t) :
    splitSlash ("/".toList.intercalate T) = T := by
  induction T with
  | nil => exact absurd rfl hne
  | cons s T ih =>
    cases T with
    | nil =>
      have : "/".toList.intercalate [s] = s := by simp [List.intercalate]
      rw [this, splitSlash_of_not_mem s (hT s (List.mem_cons_self _ _))]
    | cons t T =>
      have e : "/".toList.intercalate (s :: t :: T)
          = s ++ '/' :: "/".toList.intercalate (t :: T) := by
        rw [intercalate_cons_cons]
        simp
      rw [e, splitSlash_append_slash, splitSlash_of_not_mem s (hT s (List.mem_cons_self _ _)),
        ih (by simp) (fun x hx => hT x (List.mem_cons_of_mem _ hx))]
      rfl

theorem cleanOut_cons_ne_nil (rooted : Bool) (t : Str) (T : List Str) (ht : t ≠ []) :
    cleanOut rooted (t :: T) ≠ [] := by
  obtain ⟨c, cs, rfl⟩ := List.exists_cons_of_ne_nil ht
  cases T with
  | nil => cases rooted <;> simp [cleanOut, List.intercalate]
  | cons u T => cases rooted <;> simp [cleanOut, intercalate_cons_cons]

theorem isRooted_cleanOut (rooted : Bool) (t : Str) (T : List Str)
    (ht : t ≠ [] ∧ '/' ∉ t) : isRooted (cleanOut rooted (t :: T)) = rooted := by
  obtain ⟨c, cs, rfl⟩ := List.exists_cons_of_ne_nil ht.1
  have hc : c ≠ '/' := fun h => ht.2 (h ▸ List.mem_cons_self c cs)
  cases rooted with
  | true => rfl
  | false =>
    cases T with
    | nil => simp [cleanOut, List.intercalate, isRooted, hc]
    | cons u T => simp [cleanOut, intercalate_cons_cons, isRooted, hc]

theorem cleanElems_cleanOut (rooted : Bool) (T : List Str) (hne : T ≠ [])
    (hT : CleanStack rooted T) : cleanElems rooted (cleanOut rooted T) = T := by
  have hs := splitSlash_intercalate T hne (fun t ht => (cleanStack_mem rooted T hT t ht).2)
  cases rooted with
  | true =>
    have e : cleanOut true T = '/' :: "/".toList.intercalate T := rfl
    rw [cleanElems, e, splitSlash, if_pos rfl, hs, List.foldl_cons]
    have : cleanStep true [] [] = [] := by simp [cleanStep]
    rw [this]
    exact foldl_cleanStep_of_cleanStack true T hT
  | false =>
    have e : cleanOut false T = "/".toList.intercalate T := rfl
    rw [cleanElems, e, hs]
    exact foldl_cleanStep_of_cleanStack false T hT

/-- The path `filepath.Clean` returns for a non-empty stack of kept elements extended by
one plain element, and the facts needed to extend it again. -/
theorem clean_cleanOut_append (rooted : Bool) (T : List Str) (e : Str) (hne : T ≠ [])
    (hT : CleanStack rooted T) (he : PlainElem e) :
    clean (cleanOut rooted T ++ '/' :: e) = cleanOut rooted (T ++ [e]) := by
  obtain ⟨t, T', rfl⟩ := List.exists_cons_of_ne_nil hne
  have ht := cleanStack_mem rooted _ hT t (List.mem_cons_self _ _)
  have h0 : cleanOut rooted (t :: T') ≠ [] := cleanOut_cons_ne_nil rooted t T' ht.1
  obtain ⟨c, r, hcr⟩ := List.exists_cons_of_ne_nil h0
  have hroot : isRooted (cleanOut rooted (t :: T') ++ '/' :: e) = rooted := by
    rw [hcr, isRooted_append, ← hcr]
    exact isRooted_cleanOut rooted t T' ht
  have hne2 : cleanOut rooted (t :: T') ++ '/' :: e ≠ [] := by simp
  rw [clean, if_neg hne2, hroot, cleanElems_append_elem _ _ _ he,
    cleanElems_cleanOut rooted _ hne hT]
  have h1 : cleanOut rooted (t :: T' ++ [e]) ≠ [] := cleanOut_cons_ne_nil rooted t _ ht.1
  simp only [h1, if_false]

theorem clean_append_elem_general (x e : Str) (hx : x ≠ []) (he : PlainElem e) :
    clean (x ++ '/' :: e) = cleanOut (isRooted x) (cleanElems (isRooted x) x ++ [e]) := by
  obtain ⟨c, r, rfl⟩ := List.exists_cons_of_ne_nil hx
  have hne2 : c :: r ++ '/' :: e ≠ [] := by simp
  rw [clean, if_neg hne2, isRooted_append, cleanElems_append_elem _ _ _ he]
  have hS := cleanStack_cleanElems (isRooted (c :: r)) (c :: r)
  have h1 : cleanOut (isRooted (c :: r)) (cleanElems (isRooted (c :: r)) (c :: r) ++ [e]) ≠ [] := by
    cases hE : cleanElems (isRooted (c :: r)) (c :: r) with
    | nil => exact cleanOut_cons_ne_nil _ e [] he.1
    | cons s S =>
      rw [hE] at hS
      exact cleanOut_cons_ne_nil _ s _ (cleanStack_mem _ _ hS s (List.mem_cons_self _ _)).1
  simp only [h1, if_false]

theorem joinPath_cleanOut_append (rooted : Bool) (T : List Str) (e : Str) (hne : T ≠ [])
    (hT : CleanStack rooted T) (he : PlainElem e) :
    joinPath [cleanOut rooted T, e] = cleanOut rooted (T ++ [e]) := by
  obtain ⟨t, T', rfl⟩ := List.exists_cons_of_ne_nil hne
  have ht := cleanStack_mem rooted _ hT t (List.mem_cons_self _ _)
  rw [joinPath_pair _ _ (cleanOut_cons_ne_nil rooted t T' ht.1),
    clean_cleanOut_append rooted _ e hne hT he]

theorem joinPath_nested (rooted : Bool) (T : List Str) (e2 e3 : Str) (hne : T ≠ [])
    (hT : CleanStack rooted T) (h2 : PlainElem e2) (h3 : PlainElem e3) :
    joinPath [joinPath [cleanOut rooted T, e2], e3] = cleanOut rooted (T ++ [e2, e3]) := by
  rw [joinPath_cleanOut_append rooted T e2 hne hT h2,
    joinPath_cleanOut_append rooted (T ++ [e2]) e3 (by simp)
      (cleanStack_append_plain rooted T e2 hT h2) h3]
  simp

theorem clean_plain (e : Str) (he : PlainElem e) :
    isRooted e = false ∧ cleanElems false e = [e] ∧ clean e = cleanOut false [e] := by
  obtain ⟨c, cs, rfl⟩ := List.exists_cons_of_ne_nil he.1
  have hc : c ≠ '/' := fun h => he.2.1 (h ▸ List.mem_cons_self c cs)
  have h1 : isRooted (c :: cs) = false := by simp [isRooted, hc]
  have h2 : cleanElems false (c :: cs) = [c :: cs] := by
    rw [cleanElems, splitSlash_of_not_mem _ he.2.1, List.foldl_cons, List.foldl_nil,
      cleanStep_plain _ _ _ he]
    rfl
  refine ⟨h1, h2, ?_⟩
  rw [clean, if_neg he.1, h1, h2]
  have : cleanOut false [c :: cs] ≠ [] := cleanOut_cons_ne_nil false _ [] he.1
  simp only [this, if_false]

theorem joinPath_flat (x e1 e2 e3 : Str) (hx : x ≠ []) (h1 : PlainElem e1)
    (h2 : PlainElem e2) (h3 : PlainElem e3) :
    joinPath [x, e1, e2, e3]
      = cleanOut (isRooted x) (cleanElems (isRooted x) x ++ [e1, e2, e3]) := by
  obtain ⟨c, r, rfl⟩ := List.exists_cons_of_ne_nil hx
  have e : joinPath [c :: r, e1, e2, e3]
      = clean (((c :: r ++ '/' :: e1) ++ '/' :: e2) ++ '/' :: e3) := by
    simp [joinPath, List.dropWhile_cons, List.intercalate, List.intersperse]
  have hr1 : isRooted ((c :: r ++ '/' :: e1) ++ '/' :: e2) = isRooted (c :: r) := rfl
  rw [e, clean_append_elem_general _ _ (by simp) h3, hr1, cleanElems_append_elem _ _ _ h2,
    cleanElems_append_elem _ _ _ h1]
  simp

theorem joinPath_flat_nil (e1 e2 e3 : Str) (h1 : PlainElem e1)
    (h2 : PlainElem e2) (h3 : PlainElem e3) :
    joinPath [[], e1, e2, e3] = cleanOut false [e1, e2, e3] := by
  obtain ⟨hr, hE, _⟩ := clean_plain e1 h1
  have e : joinPath [[], e1, e2, e3] = clean ((e1 ++ '/' :: e2) ++ '/' :: e3) := by
    simp [joinPath, List.dropWhile_cons, h1.1, List.intercalate, List.intersperse]
  obtain ⟨c, r, rfl⟩ := List.exists_cons_of_ne_nil h1.1
  have hr1 : isRooted (c :: r ++ '/' :: e2) = isRooted (c :: r) := rfl
  rw [e, clean_append_elem_general _ _ (by simp) h3, hr1, hr, cleanElems_append_elem _ _ _ h2, hE]
  rfl

theorem joinPath_nil_left (e : Str) (he : PlainElem e) :
    joinPath [[], e] = cleanOut false [e] := by
  have e0 : joinPath [[], e] = clean e := by
    simp [joinPath, List.dropWhile_cons, he.1, List.intercalate, List.intersperse]
  rw [e0, (clean_plain e he).2.2]

theorem joinPath_assoc (x e1 e2 e3 : Str) (h1 : PlainElem e1) (h2 : PlainElem e2)
    (h3 : PlainElem e3) :
    joinPath [joinPath [joinPath [x, e1], e2], e3] = joinPath [x, e1, e2, e3] := by
  by_cases hx : x = []
  · subst hx
    rw [joinPath_nil_left e1 h1, joinPath_flat_nil e1 e2 e3 h1 h2 h3,
      joinPath_nested false [e1] e2 e3 (by simp)
        (cleanStack_append_plain false [] e1 (cleanStack_nil false) h1) h2 h3]
    rfl
  · rw [joinPath_flat x e1 e2 e3 hx h1 h2 h3, joinPath_pair x e1 hx,
      clean_append_elem_general x e1 hx h1,
      joinPath_nested (isRooted x) _ e2 e3 (by simp)
        (cleanStack_append_plain _ _ e1 (cleanStack_cleanElems _ x) h1) h2 h3]
    simp

theorem organizeDestPath_join (destinationFolder path : Str) (info : FileInfo)
    (hname : '/' ∉ info.name) :
    organizeDestPath destinationFolder path info
      = joinPath [destinationFolder, formatYear info.modTime, formatMonth info.modTime,
          formatHour info.modTime ++ "_".toList ++ info.name] :=
  joinPath_assoc destinationFolder _ _ _ (plainElem_formatYear info.modTime)
    (plainElem_formatMonth info.modTime) (plainElem_fileName info.modTime info.name hname)


/-! ### Substitutions around a headline placeholder -/

theorem replaceFirst_append_of_contains {q : Char} {qrest : Str} (hq : q ∉ qrest)
    (A c new : Str) (h : contains A (q :: qrest) = true) :
    replaceFirst (A ++ c) (q :: qrest) new = replaceFirst A (q :: qrest) new ++ c := by
  obtain ⟨a, b, e, ha, hr⟩ := exists_first_occurrence A q qrest h
  rw [hr new, e]
  have := replaceFirst_at hq a (b ++ c) new ha
  simpa using this

theorem replaceFirst_append_of_not_contains {q : Char} {qrest : Str} (x : Char)
    (hx : x ∉ q :: qrest) (A c new : Str) (h : contains A (q :: qrest) = false) :
    replaceFirst (A ++ x :: c) (q :: qrest) new = A ++ x :: replaceFirst c (q :: qrest) new := by
  induction A with
  | nil =>
    have h1 : (q :: qrest).isPrefixOf (x :: c) = false := by
      rw [Bool.eq_false_iff]
      intro hp
      rw [List.isPrefixOf_iff_prefix, List.cons_prefix_cons] at hp
      exact hx (hp.1 ▸ List.mem_cons_self q qrest)
    rw [List.nil_append, replaceFirst, h1]
    simp
  | cons a A ih =>
    obtain ⟨h1, h2⟩ := contains_cons_eq_false h
    have h3 : (q :: qrest).isPrefixOf (a :: (A ++ x :: c)) = false := by
      rw [Bool.eq_false_iff]
      intro hp
      rw [List.isPrefixOf_iff_prefix] at hp
      have := prefix_of_prefix_append_cons hx (a :: A) c hp
      rw [← List.isPrefixOf_iff_prefix, h1] at this
      exact Bool.false_ne_true this
    rw [List.cons_append, replaceFirst, h3]
    simp only [Bool.false_eq_true, if_false]
    rw [ih h2]
    rfl

theorem replaceFirst_skip {q : Char} {qrest : Str} (u c new : Str) (hu : q ∉ u) :
    replaceFirst (u ++ c) (q :: qrest) new = u ++ replaceFirst c (q :: qrest) new := by
  induction u with
  | nil => rfl
  | cons a u ih =>
    have h1 : (q :: qrest).isPrefixOf (a :: (u ++ c)) = false := by
      rw [Bool.eq_false_iff]
      intro hp
      rw [List.isPrefixOf_iff_prefix, List.cons_prefix_cons] at hp
      exact hu (hp.1 ▸ List.mem_cons_self a u)
    rw [List.cons_append, replaceFirst, h1]
    simp only [Bool.false_eq_true, if_false]
    rw [ih (fun hm => hu (List.mem_cons_of_mem _ hm))]
    rfl

theorem replaceFirst_text_split (A R new : Str) :
    replaceFirst (A ++ placeholderHeadline ++ R) placeholderText new
      = if contains A placeholderText = true then
          replaceFirst A placeholderText new ++ placeholderHeadline ++ R
        else A ++ placeholderHeadline ++ replaceFirst R placeholderText new := by
  by_cases h : contains A placeholderText = true
  · rw [if_pos h, List.append_assoc, List.append_assoc]
    rw [placeholderText_eq] at h ⊢
    exact replaceFirst_append_of_contains (by decide) A _ new h
  · rw [if_neg h]
    have h2 : contains A placeholderText = false := Bool.eq_false_iff.mpr h
    have e : A ++ placeholderHeadline ++ R
        = A ++ 'P' :: ("laceholder Headline".toList ++ R) := by
      simp [placeholderHeadline_eq]
    have e2 : A ++ placeholderHeadline ++ replaceFirst R placeholderText new
        = A ++ 'P' :: ("laceholder Headline".toList ++ replaceFirst R placeholderText new) := by
      simp [placeholderHeadline_eq]
    rw [e, e2]
    rw [placeholderText_eq] at h2 ⊢
    rw [replaceFirst_append_of_not_contains 'P' (by decide) A _ new h2,
      replaceFirst_skip _ R new (by decide)]

theorem renderBody_split (A R text image : Str) :
    ∃ R', (R' = R ∨ R' = replaceImage R image ∨
        R' = replaceImage (replaceText R text) image) ∧
      replaceImage (replaceText (A ++ placeholderHeadline ++ R) text) image
        = replaceImage (replaceText A text) image ++ placeholderHeadline ++ R' := by
  by_cases h1 : contains A placeholderText = true
  · have e1 : replaceText (A ++ placeholderHeadline ++ R) text
        = replaceText A text ++ placeholderHeadline ++ R := by
      rw [replaceText, replaceFirst_text_split, if_pos h1]
      rfl
    by_cases h2 : contains (replaceText A text) placeholderText = true
    · refine ⟨R, Or.inl rfl, ?_⟩
      rw [e1, replaceImage, replaceFirst_text_split, if_pos h2]
      rfl
    · refine ⟨replaceImage R image, Or.inr (Or.inl rfl), ?_⟩
      rw [e1, replaceImage, replaceFirst_text_split, if_neg h2,
        replaceImage, replaceFirst_of_not_contains _ _ _ (Bool.eq_false_iff.mpr h2)]
      rfl
  · have h1' : contains A placeholderText = false := Bool.eq_false_iff.mpr h1
    have e1 : replaceText (A ++ placeholderHeadline ++ R) text
        = A ++ placeholderHeadline ++ replaceText R text := by
      rw [replaceText, replaceFirst_text_split, if_neg h1]
      rfl
    have e2 : replaceText A text = A := replaceFirst_of_not_contains _ _ _ h1'
    have e3 : replaceImage A image = A := replaceFirst_of_not_contains _ _ _ h1'
    refine ⟨replaceImage (replaceText R text) image, Or.inr (Or.inr rfl), ?_⟩
    rw [e1, e2, e3, replaceImage, replaceFirst_text_split, if_neg h1]
    rfl

/-! ### Templates as segments -/

theorem templateOf_cons (s0 s : Str) (segs : List Str) :
    templateOf s0 (s :: segs) = s0 ++ placeholderHeadline ++ templateOf s segs := by
  simp [templateOf]

theorem intercalate_eq_templateOf (y : Str) (ys : List Str) :
    placeholderHeadline.intercalate (y :: ys) = templateOf y ys := by
  induction ys generalizing y with
  | nil => simp [templateOf, List.intercalate]
  | cons z zs ih =>
    rw [intercalate_cons_cons, ih, templateOf_cons]

theorem occurrences_templateOf (s0 : Str) (segs : List Str)
    (h0 : contains s0 placeholderHeadline = false)
    (hseg : ∀ s ∈ segs, contains s placeholderHeadline = false) :
    occurrences (templateOf s0 segs) placeholderHeadline = segs.length := by
  induction segs generalizing s0 with
  | nil =>
    have : templateOf s0 [] = s0 := by simp [templateOf]
    rw [this]
    rw [placeholderHeadline_eq] at h0 ⊢
    exact (occurrences_eq_zero_iff _ _ _).mpr h0
  | cons s segs ih =>
    have h1 := ih s (hseg s (List.mem_cons_self _ _))
      (fun x hx => hseg x (List.mem_cons_of_mem _ hx))
    have h2 := @occurrences_append_pattern 'P' "laceholder Headline".toList (by decide)
      s0 (templateOf s segs)
    rw [← placeholderHeadline_eq] at h2
    rw [templateOf_cons, h2, h1, List.length_cons]
    rw [placeholderHeadline_eq] at h0 ⊢
    rw [(occurrences_eq_zero_iff _ _ _).mpr h0]
    omega

theorem exists_segments (n : Nat) (tpl : Str) (hn : tpl.length ≤ n) :
    ∃ s0 segs, tpl = templateOf s0 segs ∧ contains s0 placeholderHeadline = false ∧
      (∀ s ∈ segs, contains s placeholderHeadline = false) := by
  induction n generalizing tpl with
  | zero =>
    have : tpl = [] := List.length_eq_zero.mp (Nat.le_zero.mp hn)
    subst this
    exact ⟨[], [], by simp [templateOf], by decide, by simp⟩
  | succ n ih =>
    by_cases h : contains tpl placeholderHeadline = true
    · rw [placeholderHeadline_eq] at h
      obtain ⟨a, b, e, ha, _⟩ := exists_first_occurrence tpl _ _ h
      have hb : b.length ≤ n := by
        have := congrArg List.length e
        simp only [List.length_append, List.length_cons] at this
        omega
      obtain ⟨t, ss, hb1, hb2, hb3⟩ := ih b hb
      rw [← placeholderHeadline_eq] at e ha
      refine ⟨a, t :: ss, ?_, ha, ?_⟩
      · rw [templateOf_cons, ← hb1, e]
      · intro s hs
        rw [List.mem_cons] at hs
        rcases hs with hs | hs
        · exact hs ▸ hb2
        · exact hb3 s hs
    · exact ⟨tpl, [], by simp [templateOf], Bool.eq_false_iff.mpr h, by simp⟩

theorem filledTemplate_split (s0 : Str) (tags segs : List Str)
    (h : tags.length ≤ segs.length) :
    filledTemplate s0
        (tags.take segs.length ++ List.replicate (segs.length - tags.length) placeholderHeadline)
        segs
      = filledTemplate s0 tags (segs.take tags.length)
          ++ ((segs.drop tags.length).map (fun s => placeholderHeadline ++ s)).flatten := by
  induction tags generalizing s0 segs with
  | nil =>
    simp [filledTemplate, zipWith_replicate_left]
  | cons t tags ih =>
    cases segs with
    | nil => simp at h
    | cons s segs =>
      have h' : tags.length ≤ segs.length := by simpa using h
      have := ih (s0 ++ t ++ s) segs h'
      simp only [filledTemplate, List.length_cons, List.take_succ_cons, List.zipWith_cons_cons,
        List.flatten_cons, List.drop_succ_cons, Nat.add_sub_add_right, List.cons_append,
        List.append_assoc] at this ⊢
      exact this

theorem substFirstSeg_length (new : Str) (L : List Str) :
    (substFirstSeg new L).length = L.length := by
  induction L with
  | nil => rfl
  | cons s ss ih =>
    rw [substFirstSeg]
    split
    · rfl
    · simp [ih]

theorem substFirstSeg_mem (new : Str) (L : List Str) (x : Str)
    (hx : x ∈ substFirstSeg new L) :
    x ∈ L ∨ ∃ s ∈ L, x = replaceFirst s placeholderText new := by
  induction L with
  | nil => simp [substFirstSeg] at hx
  | cons s ss ih =>
    rw [substFirstSeg] at hx
    split at hx
    · rw [List.mem_cons] at hx
      rcases hx with hx | hx
      · exact Or.inr ⟨s, List.mem_cons_self _ _, hx⟩
      · exact Or.inl (List.mem_cons_of_mem _ hx)
    · rw [List.mem_cons] at hx
      rcases hx with hx | hx
      · exact Or.inl (hx ▸ List.mem_cons_self _ _)
      · rcases ih hx with h | ⟨s', hs', h⟩
        · exact Or.inl (List.mem_cons_of_mem _ h)
        · exact Or.inr ⟨s', List.mem_cons_of_mem _ hs', h⟩

theorem replaceFirst_intercalate (new : Str) (y : Str) (ys : List Str) :
    replaceFirst (placeholderHeadline.intercalate (y :: ys)) placeholderText new
      = placeholderHeadline.intercalate (substFirstSeg new (y :: ys)) := by
  induction ys generalizing y with
  | nil =>
    have e : placeholderHeadline.intercalate [y] = y := by simp [List.intercalate]
    rw [e, substFirstSeg]
    by_cases h : contains y placeholderText = true
    · rw [if_pos h]
      simp [List.intercalate]
    · rw [if_neg h, replaceFirst_of_not_contains _ _ _ (Bool.eq_false_iff.mpr h)]
      simp [substFirstSeg, List.intercalate]
  | cons z zs ih =>
    rw [intercalate_cons_cons, replaceFirst_text_split, substFirstSeg]
    by_cases h : contains y placeholderText = true
    · rw [if_pos h, if_pos h, intercalate_cons_cons]
    · rw [if_neg h, if_neg h, ih z]
      obtain ⟨l, ls, hl⟩ : ∃ l ls, substFirstSeg new (z :: zs) = l :: ls := by
        cases hL : substFirstSeg new (z :: zs) with
        | nil =>
          have := substFirstSeg_length new (z :: zs)
          rw [hL] at this
          simp at this
        | cons l ls => exact ⟨l, ls, rfl⟩
      rw [hl, intercalate_cons_cons]

theorem replaceText_intercalate (text : Str) (y : Str) (ys : List Str) :
    replaceText (placeholderHeadline.intercalate (y :: ys)) text
      = placeholderHeadline.intercalate
          (substFirstSeg ("<p>".toList ++ text ++ "</p>".toList) (y :: ys)) :=
  replaceFirst_intercalate _ y ys

theorem replaceImage_intercalate (image : Str) (y : Str) (ys : List Str) :
    replaceImage (placeholderHeadline.intercalate (y :: ys)) image
      = placeholderHeadline.intercalate
          (substFirstSeg ("<img src=\"".toList ++ image ++ "\" alt=\"Picture\">".toList)
            (y :: ys)) :=
  replaceFirst_intercalate _ y ys

theorem substFirstSeg_text_free (text : Str) (L : List Str)
    (ht : contains text placeholderHeadline = false)
    (hL : ∀ s ∈ L, contains s placeholderHeadline = false) :
    ∀ s ∈ substFirstSeg ("<p>".toList ++ text ++ "</p>".toList) L,
      contains s placeholderHeadline = false := by
  intro x hx
  rcases substFirstSeg_mem _ L x hx with h | ⟨s, hs, h⟩
  · exact hL x h
  · have h1 := occurrences_replaceText s text ht
    have h2 := hL s hs
    rw [replaceText, ← h] at h1
    rw [placeholderHeadline_eq] at h1 h2 ⊢
    rw [← occurrences_eq_zero_iff, h1]
    exact (occurrences_eq_zero_iff _ _ _).mpr h2

theorem substFirstSeg_image_free (image : Str) (L : List Str)
    (hi : contains image placeholderHeadline = false)
    (hL : ∀ s ∈ L, contains s placeholderHeadline = false) :
    ∀ s ∈ substFirstSeg ("<img src=\"".toList ++ image ++ "\" alt=\"Picture\">".toList) L,
      contains s placeholderHeadline = false := by
  intro x hx
  rcases substFirstSeg_mem _ L x hx with h | ⟨s, hs, h⟩
  · exact hL x h
  · have h1 := occurrences_replaceImage s image hi
    have h2 := hL s hs
    rw [replaceImage, ← h] at h1
    rw [placeholderHeadline_eq] at h1 h2 ⊢
    rw [← occurrences_eq_zero_iff, h1]
    exact (occurrences_eq_zero_iff _ _ _).mpr h2

/-- The content before the two base-name substitutions, for fewer headlines than
placeholders: the template up to its `n`-th placeholder with the headline tags filled in
and the text and image substituted, the `(n+1)`-th placeholder, and the later segments of
the template, separated by their placeholders. -/
theorem renderBody_templateOf (s0 : Str) (segs : List Str) (doc : Extracted)
    (h0 : contains s0 placeholderHeadline = false)
    (hseg : ∀ s ∈ segs, contains s placeholderHeadline = false)
    (hc : ∀ h ∈ doc.headlines, contains h.Content placeholderHeadline = false)
    (ht : contains doc.text placeholderHeadline = false)
    (hi : contains doc.image placeholderHeadline = false)
    (hlt : doc.headlines.length < segs.length) :
    ∃ rest,
      (rest = segs.drop doc.headlines.length ∨
        rest = substFirstSeg
          ("<img src=\"".toList ++ doc.image ++ "\" alt=\"Picture\">".toList)
          (segs.drop doc.headlines.length) ∨
        rest = substFirstSeg
          ("<img src=\"".toList ++ doc.image ++ "\" alt=\"Picture\">".toList)
          (substFirstSeg ("<p>".toList ++ doc.text ++ "</p>".toList)
            (segs.drop doc.headlines.length))) ∧
      rest.length = segs.length - doc.headlines.length ∧
      (∀ s ∈ rest, contains s placeholderHeadline = false) ∧
      contains (replaceImage (replaceText
          (filledTemplate s0 (doc.headlines.map headlineTag)
            (segs.take doc.headlines.length)) doc.text) doc.image) placeholderHeadline = false ∧
      renderBody (templateOf s0 segs) doc
        = replaceImage (replaceText
            (filledTemplate s0 (doc.headlines.map headlineTag)
              (segs.take doc.headlines.length)) doc.text) doc.image
          ++ placeholderHeadline ++ placeholderHeadline.intercalate rest := by
  have hdrop : ∀ s ∈ segs.drop doc.headlines.length,
      contains s placeholderHeadline = false :=
    fun s hs => hseg s (List.mem_of_mem_drop hs)
  have hdl : (segs.drop doc.headlines.length).length = segs.length - doc.headlines.length :=
    List.length_drop _ _
  obtain ⟨y, ys, hy⟩ : ∃ y ys, segs.drop doc.headlines.length = y :: ys := by
    cases hL : segs.drop doc.headlines.length with
    | nil =>
      rw [hL] at hdl
      simp at hdl
      omega
    | cons y ys => exact ⟨y, ys, rfl⟩
  -- the headline stage
  have hH : replaceHeadlines (templateOf s0 segs) doc.headlines
      = filledTemplate s0 (doc.headlines.map headlineTag) (segs.take doc.headlines.length)
          ++ placeholderHeadline ++ placeholderHeadline.intercalate (y :: ys) := by
    rw [replaceHeadlines_templateOf s0 segs doc.headlines h0 hseg hc, headlineFills]
    have := filledTemplate_split s0 (doc.headlines.map headlineTag) segs
      (by rw [List.length_map]; omega)
    rw [List.length_map] at this
    rw [this, hy, intercalate_eq_templateOf]
    simp [templateOf]
  -- the part before the placeholder holds no placeholder
  have hA : contains (replaceImage (replaceText
      (filledTemplate s0 (doc.headlines.map headlineTag)
        (segs.take doc.headlines.length)) doc.text) doc.image) placeholderHeadline = false := by
    have htake : ∀ s ∈ segs.take doc.headlines.length,
        contains s placeholderHeadline = false :=
      fun s hs => hseg s (List.mem_of_mem_take hs)
    have hlen : (segs.take doc.headlines.length).length = doc.headlines.length := by
      rw [List.length_take]
      omega
    have e : replaceHeadlines (templateOf s0 (segs.take doc.headlines.length)) doc.headlines
        = filledTemplate s0 (doc.headlines.map headlineTag)
            (segs.take doc.headlines.length) := by
      rw [replaceHeadlines_templateOf s0 (segs.take doc.headlines.length) doc.headlines
        h0 htake hc, headlineFills, hlen, Nat.sub_self, List.replicate_zero, List.append_nil]
      congr 1
      apply List.take_of_length_le
      rw [List.length_map]
    have h1 := occurrences_replaceHeadlines (templateOf s0 (segs.take doc.headlines.length))
      doc.headlines hc
    rw [e, occurrences_templateOf s0 _ h0 htake, hlen, Nat.sub_self] at h1
    have h2 := occurrences_replaceImage (replaceText
      (filledTemplate s0 (doc.headlines.map headlineTag)
        (segs.take doc.headlines.length)) doc.text) doc.image hi
    rw [occurrences_replaceText _ _ ht, h1] at h2
    rw [placeholderHeadline_eq] at h2 ⊢
    exact (occurrences_eq_zero_iff _ _ _).mp h2
  obtain ⟨R', hR', hB⟩ := renderBody_split
    (filledTemplate s0 (doc.headlines.map headlineTag) (segs.take doc.headlines.length))
    (placeholderHeadline.intercalate (y :: ys)) doc.text doc.image
  have hbody : renderBody (templateOf s0 segs) doc
      = replaceImage (replaceText
          (filledTemplate s0 (doc.headlines.map headlineTag)
            (segs.take doc.headlines.length)) doc.text) doc.image
        ++ placeholderHeadline ++ R' := by
    rw [renderBody, hH]
    exact hB
  rw [hy] at hdrop hdl ⊢
  rcases hR' with h | h | h
  · exact ⟨y :: ys, Or.inl rfl, hdl, hdrop, hA, by rw [hbody, h]⟩
  · refine ⟨_, Or.inr (Or.inl rfl), ?_, substFirstSeg_image_free _ _ hi hdrop, hA, ?_⟩
    · rw [substFirstSeg_length, hdl]
    · rw [hbody, h, replaceImage_intercalate]
  · obtain ⟨l, ls, hl⟩ : ∃ l ls,
        substFirstSeg ("<p>".toList ++ doc.text ++ "</p>".toList) (y :: ys) = l :: ls := by
      cases hL : substFirstSeg ("<p>".toList ++ doc.text ++ "</p>".toList) (y :: ys) with
      | nil =>
        have := substFirstSeg_length ("<p>".toList ++ doc.text ++ "</p>".toList) (y :: ys)
        rw [hL] at this
        simp at this
      | cons l ls => exact ⟨l, ls, rfl⟩
    refine ⟨_, Or.inr (Or.inr rfl), ?_,
      substFirstSeg_image_free _ _ hi (substFirstSeg_text_free _ _ ht hdrop), hA, ?_⟩
    · rw [substFirstSeg_length, substFirstSeg_length, hdl]
    · rw [hbody, h, replaceText_intercalate, hl, replaceImage_intercalate, ← hl]


/-! ### The conversion pass -/

theorem walk_append (fn : World → WalkEntry → World × Option Str) (w : World)
    (pre es : List WalkEntry) :
    walk fn w (pre ++ es)
      = match walk fn w pre with
        | (w', some err) => (w', some err)
        | (w', none) => walk fn w' es := by
  induction pre generalizing w with
  | nil => rfl
  | cons e pre ih =>
    rw [List.cons_append, walk, walk]
    rcases h : fn w e with ⟨w', _ | err⟩
    · exact ih w'
    · rfl

theorem convertEntry_eq (tpl out : Str) (w : World) (e : WalkEntry) (he : e.err = none) :
    convertEntry tpl out w e
      = (if (!e.info.isDir && hasSuffix e.info.name ".md".toList) = true then
          (replaceContentInTemplate w e.path tpl out e.writeFault).1 else w, none) := by
  unfold convertEntry
  rw [he]
  dsimp only
  split
  · split <;> rename_i h <;> rw [h]
  · rfl

theorem convertEntry_snd (tpl out : Str) (w : World) (e : WalkEntry) (he : e.err = none) :
    (convertEntry tpl out w e).2 = none := by
  rw [convertEntry_eq tpl out w e he]

theorem walk_convertEntry_snd (tpl out : Str) (w : World) (es : List WalkEntry)
    (h : ∀ e ∈ es, e.err = none) : (walk (convertEntry tpl out) w es).2 = none := by
  induction es generalizing w with
  | nil => rfl
  | cons e es ih =>
    have h1 := convertEntry_snd tpl out w e (h e (List.mem_cons_self _ _))
    rw [walk]
    rcases hfn : convertEntry tpl out w e with ⟨w', _ | err⟩
    · exact ih w' (fun x hx => h x (List.mem_cons_of_mem _ hx))
    · rw [hfn] at h1
      exact absurd h1 (by simp)

/-! ### File systems that agree apart from some paths -/

theorem agree_refl (ex : List Str) (w : World) : Agree ex w w :=
  ⟨fun _ _ => rfl, rfl, fun _ h => absurd rfl h⟩

theorem agree_trans (ex : List Str) (w1 w2 w3 : World) (h12 : Agree ex w1 w2)
    (h23 : Agree ex w2 w3) : Agree ex w1 w3 := by
  obtain ⟨f12, m12, d12⟩ := h12
  obtain ⟨f23, m23, d23⟩ := h23
  refine ⟨fun p hp => (f12 p hp).trans (f23 p hp), m12.trans m23, fun p hd => ?_⟩
  by_cases h : w1.dirs p = w2.dirs p
  · have : w2.dirs p ≠ w3.dirs p := fun h' => hd (h.trans h')
    rw [m12]
    exact d23 p this
  · exact d12 p h

theorem agree_mono (ex : List Str) (w1 w2 : World) (h : Agree [] w1 w2) : Agree ex w1 w2 :=
  ⟨fun p _ => h.1 p (by simp), h.2.1, h.2.2⟩

theorem mkdirAll_agree_self (w w' : World) (path : Str) (h : mkdirAll w path = some w') :
    Agree [] w' w := by
  unfold mkdirAll at h
  split at h
  · cases h
    exact agree_refl _ _
  · rename_i hd
    split at h
    · cases h
    · rename_i hf
      cases h
      refine ⟨fun _ _ => rfl, rfl, fun p hp => ?_⟩
      by_cases hpp : p = path
      · subst hpp
        simpa using hf
      · exfalso
        apply hp
        simp [hpp]

theorem mkdirAll_agree (ex : List Str) (w1 w2 : World) (path : Str) (h : Agree ex w1 w2) :
    (mkdirAll w1 path = none ∧ mkdirAll w2 path = none) ∨
    ∃ w1' w2', mkdirAll w1 path = some w1' ∧ mkdirAll w2 path = some w2' ∧
      Agree ex w1' w2' := by
  obtain ⟨hf, hm, hd⟩ := h
  by_cases h1 : w1.dirs path = true
  · by_cases h2 : w2.dirs path = true
    · exact Or.inr ⟨w1, w2, by simp [mkdirAll, h1], by simp [mkdirAll, h2], hf, hm, hd⟩
    · have hne : w1.dirs path ≠ w2.dirs path := by
        rw [h1]
        exact fun h => h2 h.symm
      have hc1 := hd path hne
      have hc2 : w2.mkdirAllFails path = false := by rw [← hm]; exact hc1
      refine Or.inr ⟨w1, { w2 with dirs := fun p => decide (p = path) || w2.dirs p },
        by simp [mkdirAll, h1], by simp [mkdirAll, h2, hc2], hf, hm, ?_⟩
      intro p hp
      by_cases hpp : p = path
      · subst hpp
        exact hc1
      · apply hd p
        intro he
        apply hp
        simp [hpp, he]
  · by_cases h2 : w2.dirs path = true
    · have hne : w1.dirs path ≠ w2.dirs path := by
        rw [h2]
        exact h1
      have hc1 := hd path hne
      refine Or.inr ⟨{ w1 with dirs := fun p => decide (p = path) || w1.dirs p }, w2,
        by simp [mkdirAll, h1, hc1], by simp [mkdirAll, h2], hf, hm, ?_⟩
      intro p hp
      by_cases hpp : p = path
      · subst hpp
        exact hc1
      · apply hd p
        intro he
        apply hp
        simp [hpp, he]
    · by_cases hc1 : w1.mkdirAllFails path = true
      · have hc2 : w2.mkdirAllFails path = true := by rw [← hm]; exact hc1
        exact Or.inl ⟨by simp [mkdirAll, h1, hc1], by simp [mkdirAll, h2, hc2]⟩
      · have hc2 : ¬ w2.mkdirAllFails path = true := by rw [← hm]; exact hc1
        refine Or.inr ⟨{ w1 with dirs := fun p => decide (p = path) || w1.dirs p },
          { w2 with dirs := fun p => decide (p = path) || w2.dirs p },
          by simp [mkdirAll, h1, hc1], by simp [mkdirAll, h2, hc2], hf, hm, ?_⟩
        intro p hp
        by_cases hpp : p = path
        · subst hpp
          simpa using hc1
        · apply hd p
          intro he
          apply hp
          simp [hpp, he]

theorem writeFile_agree (ex : List Str) (w1 w2 : World) (path data : Str)
    (fault : Option WriteFailure) (h : Agree ex w1 w2) :
    Agree ex (writeFile w1 path data fault).1 (writeFile w2 path data fault).1 ∧
      (writeFile w1 path data fault).2 = (writeFile w2 path data fault).2 := by
  obtain ⟨hf, hm, hd⟩ := h
  rcases fault with _ | _ | k
  · refine ⟨⟨fun p hp => ?_, hm, hd⟩, rfl⟩
    simp only [writeFile]
    split
    · rfl
    · exact hf p hp
  · exact ⟨⟨hf, hm, hd⟩, rfl⟩
  · refine ⟨⟨fun p hp => ?_, hm, hd⟩, rfl⟩
    simp only [writeFile]
    split
    · rfl
    · exact hf p hp

theorem writeFile_agree_self (w : World) (path data : Str) (fault : Option WriteFailure) :
    Agree [path] (writeFile w path data fault).1 w := by
  rcases fault with _ | _ | k
  · refine ⟨fun p hp => ?_, rfl, fun p h => absurd rfl h⟩
    have : p ≠ path := by simpa using hp
    simp [writeFile, this]
  · exact agree_refl _ _
  · refine ⟨fun p hp => ?_, rfl, fun p h => absurd rfl h⟩
    have : p ≠ path := by simpa using hp
    simp [writeFile, this]

theorem replaceContentInTemplate_of_md_none (w : World) (md tpl out : Str)
    (fault : Option WriteFailure) (h : w.files md = none) :
    replaceContentInTemplate w md tpl out fault = (w, some .extracting) := by
  simp [replaceContentInTemplate, extractContentFrom, h]

theorem replaceContentInTemplate_of_tpl_none (w : World) (md tpl out data : Str)
    (fault : Option WriteFailure) (h : w.files md = some data) (ht : w.files tpl = none) :
    replaceContentInTemplate w md tpl out fault = (w, some .readingTemplate) := by
  simp [replaceContentInTemplate, extractContentFrom, h, ht]

theorem replaceContentInTemplate_of_mkdir_none (w : World) (md tpl out data t : Str)
    (fault : Option WriteFailure) (h : w.files md = some data) (ht : w.files tpl = some t)
    (hk : mkdirAll w out = none) :
    replaceContentInTemplate w md tpl out fault = (w, some .creatingFolder) := by
  simp [replaceContentInTemplate, extractContentFrom, h, ht, hk]

theorem replaceContentInTemplate_of_mkdir_some (w w1 : World) (md tpl out data t : Str)
    (fault : Option WriteFailure) (h : w.files md = some data) (ht : w.files tpl = some t)
    (hk : mkdirAll w out = some w1) :
    replaceContentInTemplate w md tpl out fault
      = ((writeFile w1 (outputPathOf md out)
            (render t (extractContent (scanLines data)) (baseNameOf md)) fault).1,
          if (writeFile w1 (outputPathOf md out)
            (render t (extractContent (scanLines data)) (baseNameOf md)) fault).2 = true
          then none else some .writingOutput) := by
  rcases fault with _ | _ | k <;>
    simp [replaceContentInTemplate, extractContentFrom, h, ht, hk, writeFile]

theorem replaceContentInTemplate_agree_self (w : World) (md tpl out : Str)
    (fault : Option WriteFailure) :
    Agree [outputPathOf md out] (replaceContentInTemplate w md tpl out fault).1 w := by
  cases h : w.files md with
  | none =>
    rw [replaceContentInTemplate_of_md_none w md tpl out fault h]
    exact agree_refl _ _
  | some data =>
    cases ht : w.files tpl with
    | none =>
      rw [replaceContentInTemplate_of_tpl_none w md tpl out data fault h ht]
      exact agree_refl _ _
    | some t =>
      cases hk : mkdirAll w out with
      | none =>
        rw [replaceContentInTemplate_of_mkdir_none w md tpl out data t fault h ht hk]
        exact agree_refl _ _
      | some w1 =>
        rw [replaceContentInTemplate_of_mkdir_some w w1 md tpl out data t fault h ht hk]
        exact agree_trans _ _ _ _ (writeFile_agree_self w1 _ _ fault)
          (agree_mono _ _ _ (mkdirAll_agree_self w w1 out hk))

theorem replaceContentInTemplate_failure_agree (w : World) (md tpl out : Str)
    (fault : Option WriteFailure)
    (hfail : (replaceContentInTemplate w md tpl out fault).2 ≠ none)
    (hfault : ∀ k, fault ≠ some (.atWrite k)) :
    Agree [] (replaceContentInTemplate w md tpl out fault).1 w := by
  cases h : w.files md with
  | none =>
    rw [replaceContentInTemplate_of_md_none w md tpl out fault h]
    exact agree_refl _ _
  | some data =>
    cases ht : w.files tpl with
    | none =>
      rw [replaceContentInTemplate_of_tpl_none w md tpl out data fault h ht]
      exact agree_refl _ _
    | some t =>
      cases hk : mkdirAll w out with
      | none =>
        rw [replaceContentInTemplate_of_mkdir_none w md tpl out data t fault h ht hk]
        exact agree_refl _ _
      | some w1 =>
        rw [replaceContentInTemplate_of_mkdir_some w w1 md tpl out data t fault h ht hk]
          at hfail ⊢
        rcases fault with _ | _ | k
        · exact absurd rfl hfail
        · exact mkdirAll_agree_self w w1 out hk
        · exact absurd rfl (hfault k)

theorem replaceContentInTemplate_agree (ex : List Str) (w1 w2 : World) (md tpl out : Str)
    (fault : Option WriteFailure) (h : Agree ex w1 w2) (hmd : md ∉ ex) (htpl : tpl ∉ ex) :
    Agree ex (replaceContentInTemplate w1 md tpl out fault).1
      (replaceContentInTemplate w2 md tpl out fault).1 := by
  have hf1 : w1.files md = w2.files md := h.1 md hmd
  have hf2 : w1.files tpl = w2.files tpl := h.1 tpl htpl
  cases hd : w2.files md with
  | none =>
    rw [replaceContentInTemplate_of_md_none w1 md tpl out fault (hf1.trans hd),
      replaceContentInTemplate_of_md_none w2 md tpl out fault hd]
    exact h
  | some data =>
    cases ht : w2.files tpl with
    | none =>
      rw [replaceContentInTemplate_of_tpl_none w1 md tpl out data fault (hf1.trans hd)
          (hf2.trans ht),
        replaceContentInTemplate_of_tpl_none w2 md tpl out data fault hd ht]
      exact h
    | some t =>
      rcases mkdirAll_agree ex w1 w2 out h with ⟨e1, e2⟩ | ⟨w1', w2', e1, e2, h'⟩
      · rw [replaceContentInTemplate_of_mkdir_none w1 md tpl out data t fault (hf1.trans hd)
            (hf2.trans ht) e1,
          replaceContentInTemplate_of_mkdir_none w2 md tpl out data t fault hd ht e2]
        exact h
      · rw [replaceContentInTemplate_of_mkdir_some w1 w1' md tpl out data t fault
            (hf1.trans hd) (hf2.trans ht) e1,
          replaceContentInTemplate_of_mkdir_some w2 w2' md tpl out data t fault hd ht e2]
        exact (writeFile_agree ex w1' w2' _ _ fault h').1

theorem convertEntry_agree (ex : List Str) (tpl out : Str) (w1 w2 : World) (e : WalkEntry)
    (h : Agree ex w1 w2) (he : e.path ∉ ex) (htpl : tpl ∉ ex) :
    Agree ex (convertEntry tpl out w1 e).1 (convertEntry tpl out w2 e).1 ∧
      (convertEntry tpl out w1 e).2 = (convertEntry tpl out w2 e).2 := by
  cases herr : e.err with
  | some err =>
    have e1 : convertEntry tpl out w1 e = (w1, some err) := by simp [convertEntry, herr]
    have e2 : convertEntry tpl out w2 e = (w2, some err) := by simp [convertEntry, herr]
    rw [e1, e2]
    exact ⟨h, rfl⟩
  | none =>
    rw [convertEntry_eq tpl out w1 e herr, convertEntry_eq tpl out w2 e herr]
    refine ⟨?_, rfl⟩
    dsimp only
    split
    · exact replaceContentInTemplate_agree ex w1 w2 e.path tpl out e.writeFault h he htpl
    · exact h

theorem walk_agree (ex : List Str) (tpl out : Str) (es : List WalkEntry) (w1 w2 : World)
    (h : Agree ex w1 w2) (hes : ∀ e ∈ es, e.path ∉ ex) (htpl : tpl ∉ ex) :
    Agree ex (walk (convertEntry tpl out) w1 es).1 (walk (convertEntry tpl out) w2 es).1 ∧
      (walk (convertEntry tpl out) w1 es).2 = (walk (convertEntry tpl out) w2 es).2 := by
  induction es generalizing w1 w2 with
  | nil => exact ⟨h, rfl⟩
  | cons e es ih =>
    obtain ⟨ha, hb⟩ := convertEntry_agree ex tpl out w1 w2 e h
      (hes e (List.mem_cons_self _ _)) htpl
    rw [walk, walk]
    rcases h1 : convertEntry tpl out w1 e with ⟨w1', _ | err1⟩ <;>
      rcases h2 : convertEntry tpl out w2 e with ⟨w2', _ | err2⟩ <;>
      rw [h1, h2] at ha hb
    · exact ih w1' w2' ha (fun x hx => hes x (List.mem_cons_of_mem _ hx))
    · simp at hb
    · simp at hb
    · exact ⟨ha, hb⟩

theorem convertEntry_agree_self (tpl out : Str) (w : World) (e : WalkEntry) :
    Agree [outputPathOf e.path out] (convertEntry tpl out w e).1 w := by
  cases herr : e.err with
  | some err =>
    have e1 : convertEntry tpl out w e = (w, some err) := by simp [convertEntry, herr]
    rw [e1]
    exact agree_refl _ _
  | none =>
    rw [convertEntry_eq tpl out w e herr]
    dsimp only
    split
    · exact replaceContentInTemplate_agree_self w e.path tpl out e.writeFault
    · exact agree_refl _ _

theorem walk_without_entry (ex : List Str) (tpl out : Str) (w : World)
    (pre post : List WalkEntry) (b : WalkEntry) (hb : b.err = none)
    (hagree : Agree ex
      (convertEntry tpl out (walk (convertEntry tpl out) w pre).1 b).1
      (walk (convertEntry tpl out) w pre).1)
    (hpost : ∀ e ∈ post, e.path ∉ ex) (htpl : tpl ∉ ex) :
    Agree ex (walk (convertEntry tpl out) w (pre ++ b :: post)).1
        (walk (convertEntry tpl out) w (pre ++ post)).1 ∧
      (walk (convertEntry tpl out) w (pre ++ b :: post)).2
        = (walk (convertEntry tpl out) w (pre ++ post)).2 := by
  rw [walk_append, walk_append]
  rcases h : walk (convertEntry tpl out) w pre with ⟨w', _ | err⟩
  · rw [h] at hagree
    dsimp only at hagree ⊢
    have hs := convertEntry_snd tpl out w' b hb
    rw [walk]
    rcases hc : convertEntry tpl out w' b with ⟨wb, _ | err⟩
    · rw [hc] at hagree
      exact walk_agree ex tpl out post wb w' hagree hpost htpl
    · rw [hc] at hs
      simp at hs
  · exact ⟨agree_refl _ _, rfl⟩

/-! ### The output path lies in the output folder -/

theorem not_mem_trimSuffix (s suf : Str) (c : Char) (h : c ∉ s) : c ∉ trimSuffix s suf := by
  unfold trimSuffix
  split
  · exact fun hm => h (List.mem_of_mem_take hm)
  · exact h

theorem baseNameOf_cases (p : Str) :
    '/' ∉ baseNameOf p ∨ baseNameOf p = "/".toList := by
  unfold baseNameOf
  dsimp only
  by_cases hp : p = []
  · left
    have : base p = ".".toList := by simp [base, hp]
    rw [this]
    decide
  · by_cases hl : ((p.rdropWhile (fun c => c = '/')).reverse.takeWhile
        (fun c => c ≠ '/')).reverse = []
    · right
      have : base p = "/".toList := by
        unfold base
        rw [if_neg hp]
        dsimp only
        rw [if_pos hl]
      rw [this]
      decide
    · left
      have hb : base p = ((p.rdropWhile (fun c => c = '/')).reverse.takeWhile
          (fun c => c ≠ '/')).reverse := by
        unfold base
        rw [if_neg hp]
        dsimp only
        rw [if_neg hl]
      apply not_mem_trimSuffix
      rw [hb, List.mem_reverse]
      intro hm
      have := List.mem_takeWhile_imp hm
      simp at this

theorem outputPathOf_in_folder (md : Str) :
    "contents/articles/".toList <+: outputPathOf md outputFolderPath := by
  rcases baseNameOf_cases md with h | h
  · have he : PlainElem (baseNameOf md ++ ".html".toList) := by
      refine plainElem_of_mem _ 'h' (by simp) (by decide) ?_
      intro hm
      rw [List.mem_append] at hm
      rcases hm with hm | hm
      · exact h hm
      · revert hm
        decide
    have := (joinPath_clean_elem outputFolderPath _ (by decide) (by decide) (by decide) he).1
    rw [outputPathOf, this]
    exact ⟨baseNameOf md ++ ".html".toList, by simp [outputFolderPath]⟩
  · rw [outputPathOf, h]
    decide

theorem ne_outputPathOf_of_prefix (p md : Str) (pre : Str) (hp : pre <+: p)
    (hlen : pre.length ≤ "contents/articles/".toList.length)
    (hne : ¬ pre <+: "contents/articles/".toList) : p ≠ outputPathOf md outputFolderPath := by
  intro h
  rw [h] at hp
  exact hne (List.prefix_of_prefix_length_le hp (outputPathOf_in_folder md) hlen)


/-! ## The claims -/

/-- C1: the headlines returned by `extractContent` are exactly one record per line that
starts with `#`, in the order of the lines, and the content of each record is
`strings.TrimSpace(strings.TrimLeft(line, "# "))`; lines not starting with `#` give no
record.  On the lines `# Hello`, `some text`, `more text`, `![Picture](img.png)` the
headlines are `[{1, "Hello"}]`. -/
theorem extractContent_headline_contents :
    (∀ lines : List Str,
      (extractContent lines).headlines.map HeadlineInfo.Content
        = (lines.filter (fun l => hasPrefix l "#".toList)).map
            (fun l => trimSpace (trimLeft l "# ".toList))) ∧
    (extractContent ["# Hello".toList, "some text".toList, "more text".toList,
        "![Picture](img.png)".toList]).headlines
      = [{ Level := 1, Content := "Hello".toList }] := by
  refine ⟨fun lines => ?_, by decide⟩
  rw [extractContent_headlines, List.map_map]
  rfl

/-- C2: for every line classified as a headline, the level of its record is the total
number of `#` characters anywhere in the line: `# Title` has level 1 and
`### Sub ## thing` has level 5, although its leading run has length 3. -/
theorem extractContent_headline_levels :
    (∀ lines : List Str,
      (extractContent lines).headlines.map HeadlineInfo.Level
        = (lines.filter (fun l => hasPrefix l "#".toList)).map
            (fun l => ((l.filter (fun c => c = '#')).length : Int))) ∧
    (extractContent ["# Title".toList]).headlines.map HeadlineInfo.Level = [1] ∧
    (extractContent ["### Sub ## thing".toList]).headlines.map HeadlineInfo.Level = [5] ∧
    ("### Sub ## thing".toList.takeWhile (fun c => c = '#')).length = 3 := by
  refine ⟨fun lines => ?_, by decide, by decide, by decide⟩
  rw [extractContent_headlines, List.map_map]
  apply List.map_congr_left
  intro l _
  simp only [Function.comp, headlineOf, countByte, List.count, List.countP_eq_length_filter]
  congr 2

/-- C3: the text returned by `extractContent` is the lines starting with neither `#` nor
`![`, in order, joined by single spaces, and whitespace-trimmed on both ends.  On the
lines `# Hello`, `some text`, `more text`, `![Picture](img.png)` it is
`some text more text`, and on no lines it is empty. -/
theorem extractContent_text_joined :
    (∀ lines : List Str,
      (extractContent lines).text
        = trimSpace (" ".toList.intercalate
            (lines.filter (fun l => !hasPrefix l "#".toList && !hasPrefix l "![".toList)))) ∧
    (extractContent ["# Hello".toList, "some text".toList, "more text".toList,
        "![Picture](img.png)".toList]).text = "some text more text".toList ∧
    (extractContent ["# Hello".toList, "![Picture](img.png)".toList]).text = [] := by
  refine ⟨fun lines => ?_, by decide, by decide⟩
  rw [extractContent_text]
  rfl

/-- C4: the image returned by `extractContent` is empty when no line is an image line
(starts with `![` and not with `#`), and otherwise is the path computed from the last
image line alone. -/
theorem extractContent_image_last :
    ∀ lines : List Str,
      (extractContent lines).image
        = match (lines.filter
              (fun l => !hasPrefix l "#".toList && hasPrefix l "![".toList)).getLast? with
          | none => []
          | some l => trim (trimSpace (trimPrefix l "![Picture]".toList)) "()".toList := by
  intro lines
  rw [extractContent_image]
  rfl

/-- C7 as stated fails: on the single line `![Picture]( img.png)` the image keeps the space
inside the parentheses, while the path with every leading and trailing parenthesis or
whitespace rune removed is `img.png`. -/
theorem image_keeps_space_inside_parentheses :
    ¬ ∀ (lines : List Str) (p : Str),
        (lines.filter isImageLine).getLast? = some ("![Picture](".toList ++ p ++ ")".toList) →
        (extractContent lines).image = strippedPath p := by
  intro h
  have h1 := h ["![Picture]( img.png)".toList] " img.png".toList (by decide)
  revert h1
  decide

/-- C7, amended: when the last image line is `![Picture](` ++ p ++ `)`, the image
returned by `extractContent` is `p` with every leading and trailing parenthesis removed
(`strings.Trim(p, "()")`); whitespace inside the parentheses is kept. -/
theorem extractContent_image_picture (lines : List Str) (p : Str)
    (h : (lines.filter isImageLine).getLast?
        = some ("![Picture](".toList ++ p ++ ")".toList)) :
    (extractContent lines).image = trim p "()".toList := by
  rw [extractContent_image, lastImage, h]
  exact imagePath_picture p

/-- C7, amended, on the lines `# Hello`, `some text`, `more text`, `![Picture](img.png)`:
the image is `img.png`. -/
theorem extractContent_image_picture_witness :
    (extractContent ["# Hello".toList, "some text".toList, "more text".toList,
        "![Picture](img.png)".toList]).image = "img.png".toList := by
  have h := extractContent_image_picture
    ["# Hello".toList, "some text".toList, "more text".toList, "![Picture](img.png)".toList]
    "img.png".toList (by decide)
  rw [h]
  decide

/-- C5 as stated fails: on the template `P ++ P` and the headlines `{1, P}`, `{2, "X"}`,
with `P` the placeholder, the second headline replaces the placeholder text inside the
first headline's tag, and the second placeholder of the template is left in place. -/
theorem replaceHeadlines_reuses_inserted_placeholder :
    ¬ ∀ (s0 : Str) (segs : List Str) (headlines : List HeadlineInfo),
        contains s0 placeholderHeadline = false →
        (∀ s ∈ segs, contains s placeholderHeadline = false) →
        replaceHeadlines (templateOf s0 segs) headlines
          = filledTemplate s0
              ((headlines.map headlineTag).take segs.length
                ++ List.replicate (segs.length - headlines.length) placeholderHeadline) segs := by
  intro h
  have h1 := h [] [[], []]
    [{ Level := 1, Content := placeholderHeadline }, { Level := 2, Content := "X".toList }]
    (by decide) (by decide)
  revert h1
  decide

/-- C5, amended: for a template `s0 ++ P ++ s1 ++ ... ++ P ++ sm` whose segments do not
contain the placeholder `P`, and headlines whose contents do not contain `P`,
`replaceHeadlines` returns the template with its i-th placeholder replaced by
`<h{level_i}>{content_i}</h{level_i}>` for i up to `min n m`, the later placeholders
left as they are, and the headlines beyond the m-th dropped. -/
theorem replaceHeadlines_left_to_right (s0 : Str) (segs : List Str)
    (headlines : List HeadlineInfo)
    (h0 : contains s0 placeholderHeadline = false)
    (hseg : ∀ s ∈ segs, contains s placeholderHeadline = false)
    (hc : ∀ h ∈ headlines, contains h.Content placeholderHeadline = false) :
    replaceHeadlines (templateOf s0 segs) headlines
      = filledTemplate s0
          ((headlines.map headlineTag).take segs.length
            ++ List.replicate (segs.length - headlines.length) placeholderHeadline) segs :=
  replaceHeadlines_templateOf s0 segs headlines h0 hseg hc

/-- C5, amended, on the template `a` ++ P ++ `b` ++ P ++ `c` with one headline `{2, "T"}`:
the first placeholder becomes `<h2>T</h2>` and the second stays. -/
theorem replaceHeadlines_left_to_right_witness :
    replaceHeadlines ("aPlaceholder HeadlinebPlaceholder Headlinec".toList)
        [{ Level := 2, Content := "T".toList }]
      = "a<h2>T</h2>bPlaceholder Headlinec".toList := by
  have h := replaceHeadlines_left_to_right "a".toList ["b".toList, "c".toList]
    [{ Level := 2, Content := "T".toList }] (by decide) (by decide) (by decide)
  have e1 : templateOf "a".toList ["b".toList, "c".toList]
      = "aPlaceholder HeadlinebPlaceholder Headlinec".toList := by decide
  rw [e1] at h
  rw [h]
  decide

/-- C6 as stated fails: with the template `Test text`, the text `Test text` and the image
`a.png`, the image substitution replaces the placeholder text that the text substitution
has just inserted, so an `<img>` tag appears. -/
theorem replaceImage_hits_inserted_text :
    ¬ ∀ (tpl text image : Str),
        occurrences tpl placeholderText = 1 → text ≠ [] → image ≠ [] →
        replaceImage (replaceText tpl text) image = replaceText tpl text := by
  intro h
  have h1 := h "Test text".toList "Test text".toList "a.png".toList
    (by decide) (by decide) (by decide)
  revert h1
  decide

/-- C6, amended: for a template containing `Test text` exactly once and a non-empty text
that does not itself contain `Test text`, and a non-empty image path, the text
substitution consumes the placeholder (none is left), and applying `replaceImage` after
`replaceText` gives the same string as `replaceText` alone. -/
theorem replaceImage_after_replaceText (tpl text image : Str)
    (h1 : occurrences tpl placeholderText = 1) (_hne : text ≠ []) (_hine : image ≠ [])
    (ht : contains text placeholderText = false) :
    contains (replaceText tpl text) placeholderText = false ∧
    replaceImage (replaceText tpl text) image = replaceText tpl text := by
  have hfree : contains (replaceText tpl text) placeholderText = false := by
    have hs : contains tpl placeholderText = true := by
      by_contra hn
      have hn2 : contains tpl placeholderText = false := Bool.eq_false_iff.mpr hn
      rw [placeholderText_eq] at hn2 h1
      rw [(occurrences_eq_zero_iff _ _ _).mpr hn2] at h1
      exact absurd h1 (by decide)
    rw [placeholderText_eq] at hs
    obtain ⟨a, b, e, _, hr⟩ := exists_first_occurrence tpl _ _ hs
    have h2 := @occurrences_append_pattern 'T' "est text".toList
      (by decide) a b
    rw [← placeholderText_eq] at hr e h2
    rw [e, h2] at h1
    have h3 := occurrences_paragraph placeholderText 'T' _ placeholderText_eq
      (by decide) (by decide) (by decide) (by decide) a b text ht
    rw [replaceText, hr]
    rw [placeholderText_eq] at h1 h3 ⊢
    rw [← occurrences_eq_zero_iff, h3]
    omega
  exact ⟨hfree, by rw [replaceImage, replaceFirst_of_not_contains _ _ _ hfree]⟩

/-- C6, amended, on the template `<div>Test text</div>` with text `hello` and image
`img.png`: the result is `<div><p>hello</p></div>` with or without the image
substitution. -/
theorem replaceImage_after_replaceText_witness :
    replaceText "<div>Test text</div>".toList "hello".toList = "<div><p>hello</p></div>".toList ∧
    replaceImage (replaceText "<div>Test text</div>".toList "hello".toList) "img.png".toList
      = replaceText "<div>Test text</div>".toList "hello".toList :=
  ⟨by decide,
   (replaceImage_after_replaceText "<div>Test text</div>".toList "hello".toList
      "img.png".toList (by decide) (by decide) (by decide) (by decide)).2⟩

/-- C10: in the pipeline of `replaceContentInTemplate`, for a template with exactly `m`
occurrences of `Placeholder Headline`, that is a template `s0 ++ P ++ s1 ++ ... ++ P ++ sm`
with segments free of the placeholder `P`, and a document with `n` headlines, where no
headline content, text, image path or base name contains `P`: when `n < m`, the content
before the headline-title substitution is the template up to `sn` with its `n`
placeholders filled by the headline tags (and the text and image substituted), then the
template's `(n+1)`-th placeholder, then the later segments separated by their
placeholders, changed at most by the text and image substitution inside a segment; the
headline-title substitution replaces exactly that `(n+1)`-th placeholder by the base
name and leaves the `m - n - 1` later ones in place.  When `n >= m` no placeholder is
left and the headline-title substitution changes nothing. -/
theorem headline_title_depends_on_headlines (tpl : Str) (doc : Extracted) (baseName : Str)
    (m : Nat) (hm : occurrences tpl placeholderHeadline = m)
    (hc : ∀ h ∈ doc.headlines, contains h.Content placeholderHeadline = false)
    (ht : contains doc.text placeholderHeadline = false)
    (hi : contains doc.image placeholderHeadline = false)
    (_hb : contains baseName placeholderHeadline = false) :
    ∃ s0 segs,
      tpl = templateOf s0 segs ∧ segs.length = m ∧
      contains s0 placeholderHeadline = false ∧
      (∀ s ∈ segs, contains s placeholderHeadline = false) ∧
      (doc.headlines.length < m →
        ∃ rest,
          (rest = segs.drop doc.headlines.length ∨
            rest = substFirstSeg
              ("<img src=\"".toList ++ doc.image ++ "\" alt=\"Picture\">".toList)
              (segs.drop doc.headlines.length) ∨
            rest = substFirstSeg
              ("<img src=\"".toList ++ doc.image ++ "\" alt=\"Picture\">".toList)
              (substFirstSeg ("<p>".toList ++ doc.text ++ "</p>".toList)
                (segs.drop doc.headlines.length))) ∧
          rest.length = m - doc.headlines.length ∧
          (∀ s ∈ rest, contains s placeholderHeadline = false) ∧
          occurrences (placeholderHeadline.intercalate rest) placeholderHeadline
            = m - (doc.headlines.length + 1) ∧
          contains (replaceImage (replaceText
              (filledTemplate s0 (doc.headlines.map headlineTag)
                (segs.take doc.headlines.length)) doc.text) doc.image)
            placeholderHeadline = false ∧
          renderBody tpl doc
            = replaceImage (replaceText
                (filledTemplate s0 (doc.headlines.map headlineTag)
                  (segs.take doc.headlines.length)) doc.text) doc.image
              ++ placeholderHeadline ++ placeholderHeadline.intercalate rest ∧
          renderHeadlineTitle tpl doc baseName
            = replaceImage (replaceText
                (filledTemplate s0 (doc.headlines.map headlineTag)
                  (segs.take doc.headlines.length)) doc.text) doc.image
              ++ baseName ++ placeholderHeadline.intercalate rest) ∧
      (m ≤ doc.headlines.length →
        contains (renderBody tpl doc) placeholderHeadline = false ∧
        renderHeadlineTitle tpl doc baseName = renderBody tpl doc) := by
  obtain ⟨s0, segs, e, h0, hseg⟩ := exists_segments tpl.length tpl (Nat.le_refl _)
  have hlen : segs.length = m := by
    rw [← hm, e, occurrences_templateOf s0 segs h0 hseg]
  refine ⟨s0, segs, e, hlen, h0, hseg, fun hlt => ?_, fun hle => ?_⟩
  · obtain ⟨rest, hrest, hrl, hrf, hA, hB⟩ :=
      renderBody_templateOf s0 segs doc h0 hseg hc ht hi (by omega)
    rw [hlen] at hrl
    refine ⟨rest, hrest, hrl, hrf, ?_, hA, by rw [e]; exact hB, ?_⟩
    · obtain ⟨y, ys, hy⟩ : ∃ y ys, rest = y :: ys := by
        cases hL : rest with
        | nil =>
          rw [hL] at hrl
          simp at hrl
          omega
        | cons y ys => exact ⟨y, ys, rfl⟩
      have h1 := occurrences_templateOf y ys
        (hrf y (by rw [hy]; exact List.mem_cons_self _ _))
        (fun s hs => hrf s (by rw [hy]; exact List.mem_cons_of_mem _ hs))
      rw [hy, intercalate_eq_templateOf, h1]
      rw [hy, List.length_cons] at hrl
      omega
    · rw [renderHeadlineTitle, e, hB]
      rw [placeholderHeadline_eq] at hA ⊢
      exact replaceFirst_at (by decide) _ _ baseName hA
  · have hocc := occurrences_renderBody tpl doc hc ht hi
    rw [hm] at hocc
    have hz : occurrences (renderBody tpl doc) placeholderHeadline = 0 := by omega
    have hfree : contains (renderBody tpl doc) placeholderHeadline = false := by
      rw [placeholderHeadline_eq] at hz ⊢
      exact (occurrences_eq_zero_iff _ _ _).mp hz
    exact ⟨hfree, replaceFirst_of_not_contains _ _ _ hfree⟩

/-- C10 on the template `Placeholder Headline|Placeholder Headline|Test text` (two
occurrences) and a document with one headline: the headline takes the first placeholder,
the base name `b` replaces the second, and the content after the headline-title
substitution is `<h1>A</h1>|b|<p>t</p>`. -/
theorem headline_title_depends_on_headlines_witness :
    occurrences "Placeholder Headline|Placeholder Headline|Test text".toList
      placeholderHeadline = 2 ∧
    renderBody "Placeholder Headline|Placeholder Headline|Test text".toList sampleDoc
      = "<h1>A</h1>|Placeholder Headline|<p>t</p>".toList ∧
    renderHeadlineTitle "Placeholder Headline|Placeholder Headline|Test text".toList
        sampleDoc "b".toList = "<h1>A</h1>|b|<p>t</p>".toList ∧
    ∃ s0 segs,
      "Placeholder Headline|Placeholder Headline|Test text".toList = templateOf s0 segs ∧
      segs.length = 2 ∧
      ∃ rest,
        renderHeadlineTitle "Placeholder Headline|Placeholder Headline|Test text".toList
            sampleDoc "b".toList
          = replaceImage (replaceText
              (filledTemplate s0 (sampleDoc.headlines.map headlineTag)
                (segs.take sampleDoc.headlines.length)) sampleDoc.text) sampleDoc.image
            ++ "b".toList ++ placeholderHeadline.intercalate rest := by
  refine ⟨by decide, by decide, by decide, ?_⟩
  obtain ⟨s0, segs, e, hl, _, _, hlt, _⟩ := headline_title_depends_on_headlines
    "Placeholder Headline|Placeholder Headline|Test text".toList sampleDoc "b".toList 2
    (by decide) (by decide) (by decide) (by decide) (by decide)
  obtain ⟨rest, _, _, _, _, _, _, hF⟩ := hlt (by decide)
  exact ⟨s0, segs, e, hl, rest, hF⟩

/-- C8: for a regular file with name `n` and modification time `t`, visited at any source
path, the destination path `organizeFilesByHour` computes is the join
`destinationRoot/<4-digit year>/<2-digit month>-<month name>/<2-digit hour>_n` of the
destination root with these three elements (`filepath.Join`, which writes the path in
cleaned form); for a destination root that is itself in cleaned form, other than `.` and
`/`, it is that string literally.  The file name has no separator and the year of the
modification time is from 0 to 9999. -/
theorem organizeFilesByHour_destination (destinationFolder path : Str) (info : FileInfo)
    (hname : '/' ∉ info.name)
    (hyear : 0 ≤ info.modTime.year ∧ info.modTime.year ≤ 9999)
    (hmonth : 1 ≤ info.modTime.month ∧ info.modTime.month ≤ 12)
    (hhour : info.modTime.hour < 24) :
    organizeDestPath destinationFolder path info
      = joinPath [destinationFolder,
          [digitChar (info.modTime.year.toNat / 1000), digitChar (info.modTime.year.toNat / 100),
            digitChar (info.modTime.year.toNat / 10), digitChar info.modTime.year.toNat],
          [digitChar (info.modTime.month / 10), digitChar info.modTime.month]
            ++ "-".toList ++ longMonthNames.getD (info.modTime.month - 1) [],
          [digitChar (info.modTime.hour / 10), digitChar info.modTime.hour]
            ++ "_".toList ++ info.name] ∧
    (clean destinationFolder = destinationFolder → destinationFolder ≠ ".".toList →
      destinationFolder ≠ "/".toList →
      organizeDestPath destinationFolder path info
        = destinationFolder ++ "/".toList
            ++ [digitChar (info.modTime.year.toNat / 1000),
                digitChar (info.modTime.year.toNat / 100),
                digitChar (info.modTime.year.toNat / 10), digitChar info.modTime.year.toNat]
            ++ "/".toList
            ++ [digitChar (info.modTime.month / 10), digitChar info.modTime.month]
            ++ "-".toList ++ longMonthNames.getD (info.modTime.month - 1) []
            ++ "/".toList
            ++ [digitChar (info.modTime.hour / 10), digitChar info.modTime.hour]
            ++ "_".toList ++ info.name) := by
  have hy := formatYear_four_digits _ hyear.1 hyear.2
  have hm : formatMonth info.modTime
      = [digitChar (info.modTime.month / 10), digitChar info.modTime.month]
          ++ "-".toList ++ longMonthNames.getD (info.modTime.month - 1) [] := by
    rw [formatMonth, appendInt_two_digits _ (by omega)]
  have hh : formatHour info.modTime
      = [digitChar (info.modTime.hour / 10), digitChar info.modTime.hour] := by
    rw [formatHour, appendInt_two_digits _ (by omega)]
  constructor
  · rw [organizeDestPath_join destinationFolder path info hname, hy, hm, hh]
  · intro hclean hdot hroot
    rw [organizeDestPath_eq destinationFolder path info hclean hdot hroot hname, hy, hm, hh]
    simp

/-- C8 on a file `blog1.html` modified at 2024-03-15 14:22:00, visited at
`contents/articles/sub/blog1.html`, with the destination root of `main`: the destination
is `../Homepage2/homepage/output/2024/03-March/14_blog1.html`. -/
theorem organizeFilesByHour_destination_witness :
    organizeDestPath "../Homepage2/homepage/output".toList
        "contents/articles/sub/blog1.html".toList (sampleInfo "blog1.html".toList)
      = "../Homepage2/homepage/output/2024/03-March/14_blog1.html".toList := by
  have h := (organizeFilesByHour_destination "../Homepage2/homepage/output".toList
    "contents/articles/sub/blog1.html".toList (sampleInfo "blog1.html".toList)
    (by decide) (by decide) (by decide) (by decide)).2 (by decide) (by decide) (by decide)
  rw [h]
  decide

/-- C9 as stated fails: `x/post.md` and `y/post.md` share the output path
`contents/articles/post.html`; when the write for `y/post.md` fails after the file has been
truncated, the output of `x/post.md` is not what it is when `y/post.md` is absent. -/
theorem failed_write_clobbers_shared_output :
    ¬ ∀ (w : World) (pre post : List WalkEntry) (b : WalkEntry),
        b.err = none →
        (replaceContentInTemplate (mainConvert w pre).1 b.path htmlTemplatePath
          outputFolderPath b.writeFault).2 ≠ none →
        (∀ e ∈ pre ++ post, hasPrefix e.path mdFolderPath = true) →
        ∀ e ∈ pre ++ post,
          (mainConvert w (pre ++ b :: post)).1.files (outputPathOf e.path outputFolderPath)
            = (mainConvert w (pre ++ post)).1.files (outputPathOf e.path outputFolderPath) := by
  intro h
  have h1 := h sampleWorld
    [fileEntry "contents/mdfiles/x/post.md".toList "post.md".toList none] []
    (fileEntry "contents/mdfiles/y/post.md".toList "post.md".toList (some (.atWrite 0)))
    rfl (by decide) (by decide)
    (fileEntry "contents/mdfiles/x/post.md".toList "post.md".toList none) (by simp)
  revert h1
  decide

/-- C9, amended: in the conversion pass of `main`, when `replaceContentInTemplate` fails on
an entry `b` of the walk, the callback reports no error for it and the walk goes on: the
walk ends with the same error, if any, as without `b`, and the files after the pass are
those of the pass without `b` at every path but the output path of `b` itself, which a
write failing midway leaves truncated; when the failure is not such a write, the files are
the same at every path. -/
theorem conversion_survives_failing_file (w : World) (pre post : List WalkEntry)
    (b : WalkEntry) (hb : b.err = none)
    (hfail : (replaceContentInTemplate (mainConvert w pre).1 b.path htmlTemplatePath
        outputFolderPath b.writeFault).2 ≠ none)
    (hpost : ∀ e ∈ post, hasPrefix e.path mdFolderPath = true) :
    (convertEntry htmlTemplatePath outputFolderPath (mainConvert w pre).1 b).2 = none ∧
    (mainConvert w (pre ++ b :: post)).2 = (mainConvert w (pre ++ post)).2 ∧
    ((∀ e ∈ pre ++ post, e.err = none) → (mainConvert w (pre ++ b :: post)).2 = none) ∧
    (∀ p, p ≠ outputPathOf b.path outputFolderPath →
      (mainConvert w (pre ++ b :: post)).1.files p = (mainConvert w (pre ++ post)).1.files p) ∧
    ((∀ k, b.writeFault ≠ some (.atWrite k)) →
      ∀ p, (mainConvert w (pre ++ b :: post)).1.files p
        = (mainConvert w (pre ++ post)).1.files p) := by
  have hq : ∀ e ∈ post, e.path ∉ [outputPathOf b.path outputFolderPath] := by
    intro e he
    rw [List.mem_singleton]
    exact ne_outputPathOf_of_prefix e.path b.path mdFolderPath
      (List.isPrefixOf_iff_prefix.mp (hpost e he)) (by decide) (by decide)
  have ht : htmlTemplatePath ∉ [outputPathOf b.path outputFolderPath] := by
    rw [List.mem_singleton]
    exact ne_outputPathOf_of_prefix htmlTemplatePath b.path "contents/l".toList
      (by decide) (by decide) (by decide)
  have h1 := walk_without_entry [outputPathOf b.path outputFolderPath] htmlTemplatePath
    outputFolderPath w pre post b hb (convertEntry_agree_self _ _ _ b) hq ht
  refine ⟨convertEntry_snd _ _ _ b hb, h1.2, fun h => ?_, fun p hp => ?_, fun hk p => ?_⟩
  · apply walk_convertEntry_snd
    intro e he
    rw [List.mem_append, List.mem_cons] at he
    rcases he with he | he | he
    · exact h e (List.mem_append_left _ he)
    · exact he ▸ hb
    · exact h e (List.mem_append_right _ he)
  · exact h1.1.1 p (by simpa using hp)
  · have hself : Agree []
        (convertEntry htmlTemplatePath outputFolderPath (mainConvert w pre).1 b).1
        (mainConvert w pre).1 := by
      rw [convertEntry_eq _ _ _ b hb]
      dsimp only
      split
      · exact replaceContentInTemplate_failure_agree _ _ _ _ _ hfail hk
      · exact agree_refl _ _
    have h2 := walk_without_entry [] htmlTemplatePath outputFolderPath w pre post b hb hself
      (by simp) (by simp)
    exact h2.1.1 p (by simp)

/-- C9, amended, on a walk visiting `x/post.md`, then `y/post.md`, whose write fails after
three runes, then `a.md`: the output of `a.md` is the one of the pass without `y/post.md`,
`<h1><h1>A</h1></h1><p><p>hello</p></p>`. -/
theorem conversion_survives_failing_file_witness :
    (mainConvert sampleWorld
        [fileEntry "contents/mdfiles/x/post.md".toList "post.md".toList none,
         fileEntry "contents/mdfiles/y/post.md".toList "post.md".toList (some (.atWrite 3)),
         fileEntry "contents/mdfiles/a.md".toList "a.md".toList none]).1.files
        "contents/articles/a.html".toList
      = (mainConvert sampleWorld
          [fileEntry "contents/mdfiles/x/post.md".toList "post.md".toList none,
           fileEntry "contents/mdfiles/a.md".toList "a.md".toList none]).1.files
          "contents/articles/a.html".toList ∧
    (mainConvert sampleWorld
        [fileEntry "contents/mdfiles/x/post.md".toList "post.md".toList none,
         fileEntry "contents/mdfiles/a.md".toList "a.md".toList none]).1.files
        "contents/articles/a.html".toList
      = some "<h1><h1>A</h1></h1><p><p>hello</p></p>".toList :=
  ⟨(conversion_survives_failing_file sampleWorld
      [fileEntry "contents/mdfiles/x/post.md".toList "post.md".toList none]
      [fileEntry "contents/mdfiles/a.md".toList "a.md".toList none]
      (fileEntry "contents/mdfiles/y/post.md".toList "post.md".toList (some (.atWrite 3)))
      rfl (by decide) (by decide)).2.2.2.1 "contents/articles/a.html".toList (by decide),
   by decide⟩

end MdToArticle
